import Mathlib

/-!
# flaka-ci: the per-service watcher (`vendor/watcher.go`)

A shallow embedding of `Watcher` and its methods.

* Go strings are lists of characters (`Str`); the texts are taken to be valid
  UTF-8.  A string literal `"abc"` of the source is written `"abc".toList`.
* A Go `error` result is `Option Error` (`none` is `nil`).
* A Go runtime panic (index out of range, failed type assertion) is the
  `none` of an outer `Option`.
* Effects (notification deliveries, pulls, command executions, log lines,
  sleeps) are recorded, in order, in a trace of `Event`s that every effectful
  function receives and returns.  The results of the external collaborators
  are supplied by an `Env`, whose answers may depend on the whole trace so far.
* The package `regexp` is a parameter (`RegexpPkg`).  `goRegexp` gives its
  behaviour on a fragment of the pattern language and leaves every pattern
  outside that fragment to a further, arbitrary package.
-/

namespace FlakaCI

/-- Go strings, as sequences of characters. -/
abbrev Str := List Char

/-- Go `error` values: only the message is kept. -/
structure Error where
  msg : String
deriving DecidableEq, Repr

/-! ## Package `strings` -/

namespace strings

/-- Go `strings.Index` together with the two slices around the hit: for the
first occurrence of `sep` in `s`, the text before it and the text after it. -/
def cut (sep : Str) : Str → Option (Str × Str)
  | [] => if sep = [] then some ([], []) else none
  | c :: cs =>
    if sep.isPrefixOf (c :: cs) then some ([], (c :: cs).drop sep.length)
    else match cut sep cs with
      | some (a, b) => some (c :: a, b)
      | none => none

/-- The loop of Go `genSplit` for a non-empty separator: at most `n` cuts. -/
def splitLoop (sep : Str) : Nat → Str → List Str
  | 0, s => [s]
  | n + 1, s =>
    match cut sep s with
    | none => [s]
    | some (a, rest) => a :: splitLoop sep n rest

/-- Go `strings.Split(s, sep)`.  With an empty separator the string is
exploded into its characters (and `Split("", "")` is the empty slice); with a
non-empty one it is cut at every occurrence of `sep`, left to right (the
number of occurrences is at most `len(s)`). -/
def Split (s sep : Str) : List Str :=
  if sep = [] then s.map (fun c => [c])
  else splitLoop sep s.length s

end strings

/-! ## Package `regexp`, as a parameter -/

/-- The part of package `regexp` that the watcher uses. -/
structure RegexpPkg where
  /-- Compiled expressions, `*regexp.Regexp`. -/
  Regexp : Type
  /-- Go `regexp.Compile`. -/
  Compile : Str → Except Error Regexp
  /-- Go `(*Regexp).FindString`: the text of the leftmost match, or the empty
  string when there is none. -/
  FindString : Regexp → Str → Str

/-! ## A fragment of the pattern language

Patterns `(?m)` followed by alternatives separated by `|`, each alternative a
flat sequence of one-character matchers (a literal character, `.`, `\s`, a
class `[a-z0-9]` of letters, digits and ranges of them), each optionally
followed by one greedy `*`, `+`, `?` or an exact count `{n}`, and of `$`
assertions.  Groups, `^`, other escapes, other classes, other flags and
non-greedy operators are outside the fragment, and so is every pattern that
does not start with `(?m)`.  Limits of the library on the size of a pattern
are not modelled. -/

namespace Frag

/-- One-character matchers. -/
inductive CharSet
  /-- A literal character. -/
  | lit (c : Char)
  /-- `.` without the `s` flag: any character but newline. -/
  | dot
  /-- A class `[...]`, as its list of ranges `lo-hi`. -/
  | ranges (rs : List (Char × Char))
  /-- The Perl class `\s`, which in Go is `[\t\n\f\r ]`. -/
  | space
deriving DecidableEq, Repr

/-- Characters of `\s`. -/
def isSpace (c : Char) : Bool :=
  c = '\t' || c = '\n' || c = '\x0c' || c = '\r' || c = ' '

/-- Whether a character lies in one of the ranges. -/
def inRanges (rs : List (Char × Char)) (c : Char) : Bool :=
  rs.any (fun r => decide (r.1.toNat ≤ c.toNat ∧ c.toNat ≤ r.2.toNat))

/-- Whether a one-character matcher accepts a character. -/
def CharSet.test : CharSet → Char → Bool
  | .lit a, c => decide (c = a)
  | .dot, c => decide (c ≠ '\n')
  | .ranges rs, c => inRanges rs c
  | .space, c => isSpace c

/-- The instructions of a flat pattern. -/
inductive Inst
  /-- Exactly one character of the set. -/
  | one (cs : CharSet)
  /-- Greedy `x*`. -/
  | star (cs : CharSet)
  /-- Greedy `x+`. -/
  | plus (cs : CharSet)
  /-- Greedy `x?`. -/
  | quest (cs : CharSet)
  /-- `$` under the flag `m`: end of text, or just before a newline. -/
  | endLine
deriving DecidableEq, Repr

/-- One alternative of a pattern: a flat sequence of instructions. -/
abbrev Alt := List Inst

/-- Compiled patterns of the fragment: the alternatives, in order. -/
abbrev Regexp := List Alt

/-- Greedy repetition with backtracking: take as many characters of the set
as possible, giving one back at a time while the continuation `k` fails. -/
def starK (test : Char → Bool) (k : Str → Option Str) : Str → Option Str
  | [] => k []
  | c :: cs =>
    if test c then
      match starK test k cs with
      | some m => some (c :: m)
      | none => k (c :: cs)
    else k (c :: cs)

/-- The match of one alternative that starts at the head of the text, as found
by a backtracking search that prefers longer repetitions: the matched text, or
`none`. -/
def matchHere : Alt → Str → Option Str
  | [], _ => some []
  | .one cs :: re, s =>
    match s with
    | c :: t => if cs.test c then (matchHere re t).map (c :: ·) else none
    | [] => none
  | .star cs :: re, s => starK cs.test (matchHere re) s
  | .plus cs :: re, s =>
    match s with
    | c :: t => if cs.test c then (starK cs.test (matchHere re) t).map (c :: ·) else none
    | [] => none
  | .quest cs :: re, s =>
    match s with
    | c :: t =>
      if cs.test c then
        match matchHere re t with
        | some m => some (c :: m)
        | none => matchHere re s
      else matchHere re s
    | [] => matchHere re []
  | .endLine :: re, s =>
    match s with
    | [] => matchHere re []
    | c :: t => if c = '\n' then matchHere re (c :: t) else none

/-- The match of the pattern that starts at the head of the text: that of the
first alternative, in order, that matches there (leftmost-first semantics). -/
def matchAlts : Regexp → Str → Option Str
  | [], _ => none
  | alt :: rest, s =>
    match matchHere alt s with
    | some m => some m
    | none => matchAlts rest s

/-- The leftmost match: the first start position, from left to right, at
which the pattern matches. -/
def find (re : Regexp) : Str → Option Str
  | [] => matchAlts re []
  | c :: cs =>
    match matchAlts re (c :: cs) with
    | some m => some m
    | none => find re cs

/-- The fragment's `FindString`: the leftmost match, `""` when there is none. -/
def FindString (re : Regexp) (s : Str) : Str :=
  (find re s).getD []

/-! ### Parsing the fragment -/

/-- Outcome of parsing a pattern against the fragment. -/
inductive Parse (α : Type)
  /-- The pattern is in the fragment and well formed. -/
  | ok (a : α)
  /-- The pattern is rejected by `regexp.Compile` with this error. -/
  | bad (e : Error)
  /-- The pattern is outside the fragment; nothing is said about it. -/
  | outside
deriving DecidableEq, Repr

/-- What stands just before the parsing position, which decides what a
repetition operator applies to. -/
inductive Last
  /-- Nothing: the pattern or the alternative starts here. -/
  | start
  /-- A one-character matcher, the most recent instruction. -/
  | atom
  /-- A repetition operator. -/
  | rep
  /-- A `$`. -/
  | dollar
deriving DecidableEq, Repr

/-- Inside a class: the item being read. -/
inductive Pend
  /-- Between items. -/
  | none
  /-- A character, which may still open a range. -/
  | lo (c : Char)
  /-- A character and `-`: the upper end of the range is due. -/
  | dash (c : Char)
deriving DecidableEq, Repr

/-- Where the parser is. -/
inductive Mode
  /-- Between items of the pattern. -/
  | top
  /-- Just after a backslash. -/
  | esc
  /-- Inside `[...]`, with the ranges read so far. -/
  | cls (rs : List (Char × Char)) (pend : Pend)
  /-- Inside `{...}`, with the digits read so far. -/
  | count (digits : List Char)
deriving DecidableEq, Repr

/-- Parser state: the alternatives that are complete, most recent first, and
the instructions of the current alternative, most recent first. -/
structure PState where
  alts : List Alt
  rev : List Inst
  last : Last
  mode : Mode
deriving DecidableEq, Repr

/-- Append a one-character matcher. -/
def pushAtom (st : PState) (cs : CharSet) : PState :=
  ⟨st.alts, .one cs :: st.rev, .atom, .top⟩

/-- Apply `*`, `+` or `?` (as `mk`) to what precedes.  A second repetition
operator in a row is the error "invalid nested repetition operator" (for `?`
it would be the non-greedy mark, outside the fragment); a repetition operator
at the start of an alternative has no argument. -/
def pushRepeat (st : PState) (c : Char) (mk : CharSet → Inst) : Parse PState :=
  match st.last, st.rev with
  | .atom, .one cs :: r => .ok ⟨st.alts, mk cs :: r, .rep, .top⟩
  | .atom, _ => .outside
  | .rep, _ =>
    if c = '?' then .outside
    else .bad ⟨"invalid nested repetition operator"⟩
  | .start, _ => .bad ⟨"missing argument to repetition operator"⟩
  | .dollar, _ => .outside

/-- Decimal value of a list of digits. -/
def digitsValue (ds : List Char) : Nat :=
  ds.foldl (fun n d => 10 * n + (d.toNat - '0'.toNat)) 0

/-- One character of the pattern. -/
def step (st : PState) (c : Char) : Parse PState :=
  match st.mode with
  | .top =>
    if c = '\\' then .ok { st with mode := .esc }
    else if c = '[' then .ok { st with mode := .cls [] .none }
    else if c = '.' then .ok (pushAtom st .dot)
    else if c = '$' then .ok ⟨st.alts, .endLine :: st.rev, .dollar, .top⟩
    else if c = '|' then .ok ⟨st.rev.reverse :: st.alts, [], .start, .top⟩
    else if c = '*' then pushRepeat st c .star
    else if c = '+' then pushRepeat st c .plus
    else if c = '?' then pushRepeat st c .quest
    else if c = '{' then
      match st.last with
      | .atom => .ok { st with mode := .count [] }
      | _ => .outside
    else if c = '(' || c = ')' || c = '^' || c = '}' || c = ']' then .outside
    else .ok (pushAtom st (.lit c))
  | .esc =>
    if c = 's' then .ok (pushAtom st .space) else .outside
  | .cls rs pend =>
    if c = ']' then
      match pend with
      | .none => if rs = [] then .outside else .ok (pushAtom st (.ranges rs))
      | .lo a => .ok (pushAtom st (.ranges (rs ++ [(a, a)])))
      | .dash _ => .outside
    else if c = '-' then
      match pend with
      | .lo a => .ok { st with mode := .cls rs (.dash a) }
      | _ => .outside
    else if c.isAlphanum then
      match pend with
      | .none => .ok { st with mode := .cls rs (.lo c) }
      | .lo a => .ok { st with mode := .cls (rs ++ [(a, a)]) (.lo c) }
      | .dash a =>
        if a.toNat ≤ c.toNat then .ok { st with mode := .cls (rs ++ [(a, c)]) .none }
        else .bad ⟨"invalid character class range"⟩
    else .outside
  | .count ds =>
    if c.isDigit then
      if ds = ['0'] then .outside else .ok { st with mode := .count (ds ++ [c]) }
    else if c = '}' then
      match ds, st.rev with
      | [], _ => .outside
      | _ :: _, .one cs :: r =>
        if digitsValue ds > 1000 then .bad ⟨"invalid repeat count"⟩
        else .ok ⟨st.alts, List.replicate (digitsValue ds) (.one cs) ++ r, .rep, .top⟩
      | _ :: _, _ => .outside
    else .outside

/-- Read the pattern left to right; the first error or the first construct
outside the fragment ends the parse. -/
def run : PState → Str → Parse PState
  | st, [] => .ok st
  | st, c :: cs =>
    match step st c with
    | .ok st1 => run st1 cs
    | .bad e => .bad e
    | .outside => .outside

/-- At the end of the pattern. -/
def finish (st : PState) : Parse Regexp :=
  match st.mode with
  | .top => .ok (st.rev.reverse :: st.alts).reverse
  | .esc => .bad ⟨"trailing backslash at end of expression"⟩
  | .cls _ _ => .bad ⟨"missing closing ]"⟩
  | .count _ => .outside

/-- Parse a pattern of the fragment: the flag group `(?m)` and then the
alternatives. -/
def parse (pattern : Str) : Parse Regexp :=
  match pattern with
  | '(' :: '?' :: 'm' :: ')' :: body =>
    match run ⟨[], [], .start, .top⟩ body with
    | .ok st => finish st
    | .bad e => .bad e
    | .outside => .outside
  | _ => .outside

end Frag

/-- Package `regexp`: on the fragment it behaves as `Frag` says; a pattern
outside the fragment is handed to `other`, about which nothing is assumed. -/
def goRegexp (other : RegexpPkg) : RegexpPkg where
  Regexp := Frag.Regexp ⊕ other.Regexp
  Compile pattern :=
    match Frag.parse pattern with
    | .ok re => .ok (.inl re)
    | .bad e => .error e
    | .outside =>
      match other.Compile pattern with
      | .ok re => .ok (.inr re)
      | .error e => .error e
  FindString re s :=
    match re with
    | .inl r => Frag.FindString r s
    | .inr r => other.FindString r s

/-- A package that accepts no pattern: a stand-in for `other` where a
concrete package is needed and every pattern at hand is in the fragment. -/
def noRegexp : RegexpPkg where
  Regexp := Unit
  Compile _ := .error ⟨"not in the fragment"⟩
  FindString _ _ := []

/-! ## The watcher -/

/-- The Go type `Watcher`. -/
structure Watcher where
  ServiceName : Str
  ServicePath : Str
  ServiceCommands : List Str
  Notifications : Str
  Branch : Str
deriving DecidableEq, Repr

/-- The Go type `Notification`, which is declared outside `watcher.go`: the
fields that `composeNotification` sets.  The field `Type` is `Typ` here. -/
structure Notification where
  EndpointURL : Str
  Title : Str
  Typ : Str
  Log : Str
deriving DecidableEq, Repr

/-- Observable effects, in the order in which they happen. -/
inductive Event
  /-- A call of `ntf.Send()`: one delivery attempt. -/
  | send (ntf : Notification)
  /-- The pull of `PullRepository(w, done)`. -/
  | pull (w : Watcher)
  /-- A call of `ExecCommand(w, command)`: one attempt to run a command. -/
  | exec (w : Watcher) (command : Str)
  /-- A line written to the log. -/
  | log (text : Str)
  /-- The call `time.Sleep` of the given number of seconds. -/
  | sleep (seconds : Nat)
deriving DecidableEq, Repr

/-- Values of Go type `interface{}` in a service's options. -/
inductive Value
  /-- A string. -/
  | str (s : Str)
  /-- A list of strings. -/
  | list (ss : List Str)
  /-- A value of any other dynamic type. -/
  | other (tag : Nat)
deriving DecidableEq, Repr

/-- The Go type `ServerConfig`, which is declared outside `watcher.go`: the
fields that `WatchCommits` reads.  `Services` is a Go map; it is listed here in
the order in which `range` visits it.  A key that is missing from an option map
and a key bound to `nil` both read as `nil`, so both are an absent entry. -/
structure ServerConfig where
  Services : List (Str × List (Str × Value))
  Dir : Str
  NotificationURL : Str
deriving DecidableEq, Repr

/-- The external collaborators.  Every answer may depend on the trace so far,
so that all outcomes of every call are covered. -/
structure Env where
  /-- What `git show-ref --head`, run in the given directory, writes to its
  standard output (empty when the command cannot run). -/
  showRef : List Event → Str → Str
  /-- What `git ls-remote`, run in the given directory, writes to its
  standard output. -/
  lsRemote : List Event → Str → Str
  /-- The result of `ntf.Send()`. -/
  Send : List Event → Notification → Option Error
  /-- The result of the pull inside `PullRepository`. -/
  pull : List Event → Watcher → Option Error
  /-- The result of `ExecCommand(w, command)`. -/
  ExecCommand : List Event → Watcher → Str → Option Error
  /-- The two results of `ParseCommands(options["command"])`. -/
  ParseCommands : Value → List Str × Option Error

/-- Modelled from the spec: `HandleError` is not in `watcher.go`.  Every error
is absorbed by logging it and the caller continues. -/
def HandleError (text : Str) (err : Error) (tr : List Event) : List Event :=
  tr ++ [.log (text ++ ": ".toList ++ err.msg.toList)]

/-- The statement `if err != nil { HandleError(text, err) }`. -/
def handleIfErr (text : Str) (err : Option Error) (tr : List Event) : List Event :=
  match err with
  | some e => HandleError text e tr
  | none => tr

namespace Watcher

/-- Go `GetCommitHash`: `fmt.Sprintf` puts the branch, as it is, in the place
of `%s`. -/
def GetCommitHash (w : Watcher) : Str :=
  "(?m)[a-z0-9]{40}\\srefs/heads/".toList ++ w.Branch ++ "$".toList

/-- Go `LocalMasterHash`; `cmdOut` is what `git show-ref --head` wrote to the
buffer (the result of `cmd.Run()` is ignored by the source).  The outer
`none` is the panic of the index expression `[0]`. -/
def LocalMasterHash (re : RegexpPkg) (w : Watcher) (cmdOut : Str) :
    Option (Str × Option Error) :=
  match re.Compile w.GetCommitHash with
  | .error err => some ([], some err)
  | .ok checker =>
    let m := re.FindString checker cmdOut
    match (strings.Split m " ".toList)[0]? with
    | some hash => some (hash, none)
    | none => none

/-- Go `RemoteMasterHash`; `cmdOut` is what `git ls-remote` wrote to the
buffer. -/
def RemoteMasterHash (re : RegexpPkg) (w : Watcher) (cmdOut : Str) :
    Option (Str × Option Error) :=
  match re.Compile w.GetCommitHash with
  | .error err => some ([], some err)
  | .ok checker =>
    let m := re.FindString checker cmdOut
    match (strings.Split m "\t".toList)[0]? with
    | some hash => some (hash, none)
    | none => none

/-- Go `HasChanged`. -/
def HasChanged (re : RegexpPkg) (env : Env) (w : Watcher) (tr : List Event) :
    Option (Bool × List Event) :=
  match LocalMasterHash re w (env.showRef tr w.ServicePath) with
  | none => none
  | some (hash, err) =>
    let tr1 := handleIfErr "Error getting local hash".toList err tr
    match RemoteMasterHash re w (env.lsRemote tr1 w.ServicePath) with
    | none => none
    | some (remoteHash, err) =>
      let tr2 := handleIfErr "Error getting master hash".toList err tr1
      if remoteHash ≠ hash then some (true, tr2) else some (false, tr2)

/-- Go `SendNotification`. -/
def SendNotification (w : Watcher) : Bool :=
  if w.Notifications = [] then false else true

/-- Go `composeNotification`. -/
def composeNotification (env : Env) (w : Watcher) (text ntfType ntfLog : Str)
    (tr : List Event) : List Event :=
  if w.SendNotification then
    let ntf : Notification :=
      { EndpointURL := w.Notifications, Title := text ++ w.ServiceName, Typ := ntfType, Log := [] }
    let ntf := if ntfLog ≠ [] then { ntf with Log := ntfLog } else ntf
    handleIfErr "Error sending notification".toList (env.Send tr ntf) (tr ++ [.send ntf])
  else tr

/-- Modelled from the spec: `PullRepository` is not in `watcher.go`.  It pulls
the repository, a failure is logged, and in either case it then signals
completion on `done`. -/
def PullRepository (env : Env) (w : Watcher) (tr : List Event) : List Event :=
  handleIfErr "Error pulling repository".toList (env.pull tr w) (tr ++ [.pull w])

/-- The `for` loop over the commands, which `job` starts as a goroutine: the
commands are run one after the other. -/
def runCommands (env : Env) (w : Watcher) : List Str → List Event → List Event
  | [], tr => tr
  | command :: rest, tr =>
    let tr1 := tr ++ [.log ("-> '".toList ++ command ++ "'\n".toList)]
    let tr2 := handleIfErr "Error running command".toList (env.ExecCommand tr1 w command)
      (tr1 ++ [.exec w command])
    runCommands env w rest tr2

/-- Go `job`: its result and the trace of the whole job cycle.  The pull runs
in a goroutine of its own and `job` waits for its signal, and the commands run
in a goroutine that starts after that signal, so the effects of one cycle
happen in the order recorded here.  `job` itself returns as soon as the
command goroutine is started; how that goroutine interleaves with what the
caller does next is not recorded. -/
def job (env : Env) (w : Watcher) (tr : List Event) : Option Error × List Event :=
  let tr1 := w.composeNotification env "Started job for service ".toList "info".toList [] tr
  let tr2 := w.PullRepository env tr1
  if w.ServiceCommands.length = 0 then (none, tr2)
  else (none, w.runCommands env w.ServiceCommands tr2)

/-- One turn of the `for` loop of Go `Start`: the check, the job cycle that it
triggers, if any, and the sleep.  The loop has no exit.  The commands of a
cycle run in a goroutine of their own, so in the running program they may
still be at work during the sleep and during later turns; only single turns
are described here, and no chaining of turns is defined. -/
def StartIter (re : RegexpPkg) (env : Env) (w : Watcher) (tr : List Event) :
    Option (List Event) :=
  match w.HasChanged re env tr with
  | none => none
  | some (changed, tr1) =>
    let tr2 := if changed then (w.job env tr1).2 else tr1
    some (tr2 ++ [.sleep 5])

end Watcher

/-- The type assertion `v.(string)` on an option: `none` is its panic. -/
def assertString : Option Value → Option Str
  | some (.str s) => some s
  | _ => none

/-- The statement `if options["command"] != nil { ... }` of Go `WatchCommits`:
the commands are set to what `ParseCommands` returns, and its error, if any,
is handled. -/
def setCommands (env : Env) (options : List (Str × Value)) (w : Watcher) (tr : List Event) :
    Watcher × List Event :=
  match options.lookup "command".toList with
  | some v =>
    ({ w with ServiceCommands := (env.ParseCommands v).1 },
      handleIfErr [] (env.ParseCommands v).2 tr)
  | none => (w, tr)

/-- The statement `if options["branch"] != nil { ... }` of Go `WatchCommits`;
`none` is the panic of the type assertion. -/
def setBranch (options : List (Str × Value)) (w : Watcher) : Option Watcher :=
  match options.lookup "branch".toList with
  | some v =>
    match assertString (some v) with
    | some branch => some { w with Branch := branch }
    | none => none
  | none => some w

/-- The body of the loop of Go `WatchCommits`, up to the statement
`go w.Start()`: the watcher that is built and then started. -/
def newWatcher (env : Env) (c : ServerConfig) (service : Str) (options : List (Str × Value))
    (tr : List Event) : Option (Watcher × List Event) :=
  match assertString (options.lookup "path".toList) with
  | none => none
  | some path =>
    let w0 : Watcher :=
      { ServiceName := service, ServicePath := c.Dir ++ "/".toList ++ path,
        ServiceCommands := [], Notifications := c.NotificationURL, Branch := "master".toList }
    let r := setCommands env options w0 tr
    match setBranch options r.1 with
    | none => none
    | some w => some (w, w.composeNotification env "Started CI for ".toList "success".toList [] r.2)

/-- The loop of Go `WatchCommits` over the services. -/
def watchAll (env : Env) (c : ServerConfig) :
    List (Str × List (Str × Value)) → List Event → Option (List Watcher × List Event)
  | [], tr => some ([], tr)
  | (service, options) :: rest, tr =>
    match newWatcher env c service options tr with
    | none => none
    | some (w, tr1) =>
      match watchAll env c rest tr1 with
      | none => none
      | some (ws, tr2) => some (w :: ws, tr2)

/-- Go `WatchCommits`: the watchers whose `Start` loops it launches, each as a
goroutine of its own, and the trace of the start-up itself. -/
def WatchCommits (env : Env) (c : ServerConfig) (tr : List Event) :
    Option (List Watcher × List Event) :=
  watchAll env c c.Services tr

/-! ## Observations on traces -/

/-- The delivery attempts recorded in a trace, in order. -/
def deliveries (tr : List Event) : List Notification :=
  tr.filterMap fun e =>
    match e with
    | .send ntf => some ntf
    | _ => none

/-- The commands whose execution was attempted, in order. -/
def attempted (tr : List Event) : List Str :=
  tr.filterMap fun e =>
    match e with
    | .exec _ command => some command
    | _ => none

/-- The watchers whose repository was pulled, in order. -/
def pulled (tr : List Event) : List Watcher :=
  tr.filterMap fun e =>
    match e with
    | .pull w => some w
    | _ => none

/-- The text that the compiled pattern of the watcher finds in `cmdOut`: the
value of `match` in `LocalMasterHash` and `RemoteMasterHash` (empty when the
pattern does not compile, in which case no search is made). -/
def Watcher.matchOf (re : RegexpPkg) (w : Watcher) (cmdOut : Str) : Str :=
  match re.Compile w.GetCommitHash with
  | .error _ => []
  | .ok checker => re.FindString checker cmdOut

/-- The error of `regexp.Compile` on the pattern of the watcher, if any. -/
def Watcher.compileErr (re : RegexpPkg) (w : Watcher) : Option Error :=
  match re.Compile w.GetCommitHash with
  | .error err => some err
  | .ok _ => none

/-! ## Example data -/

/-- A watcher on branch `master` with three commands and an endpoint. -/
def demoWatcher : Watcher :=
  { ServiceName := "api".toList, ServicePath := "/srv/api".toList,
    ServiceCommands := ["cmd-ok".toList, "cmd-fail".toList, "cmd-ok2".toList],
    Notifications := "http://hooks.example/ci".toList, Branch := "master".toList }

/-- The output of `git show-ref --head` of the example: hash, space, ref. -/
def demoShowRef : Str :=
  ("3f786850e387550fdab836ed7e6dc881de23001b refs/heads/master\n" ++
   "89e6c98d92887913cadf06b2adb97f26cde4849b refs/heads/dev\n").toList

/-- The output of `git ls-remote` of the example: hash, tab, ref. -/
def demoLsRemote : Str :=
  ("89e6c98d92887913cadf06b2adb97f26cde4849b\trefs/heads/master\n" ++
   "89e6c98d92887913cadf06b2adb97f26cde4849b\trefs/heads/dev\n").toList

/-- Collaborators of the example: the remote is ahead of the local clone, the
pull fails, and the command `cmd-fail` fails. -/
def demoEnv : Env :=
  { showRef := fun _ _ => demoShowRef,
    lsRemote := fun _ _ => demoLsRemote,
    Send := fun _ _ => none,
    pull := fun _ _ => some ⟨"exit status 1"⟩,
    ExecCommand := fun _ _ command =>
      if command = "cmd-fail".toList then some ⟨"exit status 1"⟩ else none,
    ParseCommands := fun v =>
      match v with
      | .str s => ([s], none)
      | .list ss => (ss, none)
      | .other _ => ([], some ⟨"unknown command type"⟩) }

/-- Collaborators whose two listing commands print nothing. -/
def silentEnv : Env :=
  { demoEnv with showRef := fun _ _ => [], lsRemote := fun _ _ => [] }

/-- A configuration with one service that names no branch and one that does. -/
def demoConfig : ServerConfig :=
  { Services :=
      [("api".toList, [("path".toList, .str "api".toList)]),
       ("web".toList, [("path".toList, .str "web".toList), ("branch".toList, .str "dev".toList),
          ("command".toList, .str "make".toList)])],
    Dir := "/srv".toList,
    NotificationURL := "http://hooks.example/ci".toList }

/-! ## Vocabulary for the statements about extraction -/

/-- Characters with a special meaning in a pattern: the ones that Go
`regexp.QuoteMeta` escapes. -/
def isMeta (c : Char) : Bool :=
  c = '\\' || c = '.' || c = '+' || c = '*' || c = '?' || c = '(' || c = ')' || c = '|' ||
  c = '[' || c = ']' || c = '{' || c = '}' || c = '^' || c = '$'

/-- Lowercase hexadecimal digits, `0-9` and `a-f`. -/
def isLowerHex (c : Char) : Bool :=
  ('0'.toNat ≤ c.toNat && c.toNat ≤ '9'.toNat) || ('a'.toNat ≤ c.toNat && c.toNat ≤ 'f'.toNat)

/-- Strings of exactly 40 lowercase hexadecimal digits. -/
def isHexHash (h : Str) : Bool :=
  h.length = 40 && h.all isLowerHex

/-- The class `[a-z0-9]` of the pattern. -/
def Frag.lowerAlnum : Frag.CharSet :=
  .ranges [('a', 'z'), ('0', '9')]

/-- The instructions for a literal text. -/
def Frag.lits (s : Str) : Frag.Alt :=
  s.map fun c => .one (.lit c)

/-- The pattern `(?m)[a-z0-9]{40}\srefs/heads/<b>$` for a branch name `b`
without metacharacters: 40 times the class, `\s`, the literal ref, `$`. -/
def Frag.hashPattern (b : Str) : Frag.Alt :=
  List.replicate 40 (.one Frag.lowerAlnum) ++
    .one .space :: (Frag.lits ("refs/heads/".toList ++ b) ++ [.endLine])

/-- End of line: the end of the text, or a newline next. -/
def atEol : Str → Bool
  | [] => true
  | c :: _ => c = '\n'

/-- One line of a ref listing: a hash and the name of a branch. -/
structure RefLine where
  hash : Str
  name : Str
deriving DecidableEq, Repr

/-- The line as git prints it: hash, separator, `refs/heads/<name>`. -/
def RefLine.text (sep : Char) (l : RefLine) : Str :=
  l.hash ++ sep :: ("refs/heads/".toList ++ l.name)

/-- A well-formed line: 40 lowercase hexadecimal digits and a name without
whitespace (git does not allow whitespace in a ref name). -/
def RefLine.wf (l : RefLine) : Prop :=
  isHexHash l.hash = true ∧ ∀ c ∈ l.name, Frag.isSpace c = false

/-- A listing made of the given lines, separated by newlines; `nl` tells
whether the last line also ends in a newline. -/
def listing (sep : Char) : List RefLine → Bool → Str
  | [], _ => []
  | l :: rest, nl =>
    l.text sep ++ (if rest.isEmpty && !nl then [] else '\n' :: listing sep rest nl)

instance (l : RefLine) : Decidable l.wf := by
  unfold RefLine.wf
  infer_instance

/-- The lines of a text. -/
def linesOf (out : Str) : List Str :=
  strings.Split out "\n".toList

/-- The line that claim C6 promises for a hash `h` and a branch name `b`, in
the words of the claim: the whole line consists of `h`, one whitespace
character, and a ref path ending in the literal text `refs/heads/` followed
by `b`. -/
def isClaimedLine (h b line : Str) : Bool :=
  h.isPrefixOf line &&
    match line.drop h.length with
    | ws :: path => Frag.isSpace ws && ("refs/heads/".toList ++ b).isSuffixOf path
    | [] => false

/-- A watcher on the branch `v1.0`, whose name holds a metacharacter. -/
def dottedWatcher : Watcher :=
  { demoWatcher with Branch := "v1.0".toList }

/-- A watcher whose branch is written `master|dev`. -/
def barWatcher : Watcher :=
  { demoWatcher with Branch := "master|dev".toList }

/-- The two lines of the example listing. -/
def demoLines : List RefLine :=
  [⟨"3f786850e387550fdab836ed7e6dc881de23001b".toList, "master".toList⟩,
   ⟨"89e6c98d92887913cadf06b2adb97f26cde4849b".toList, "dev".toList⟩]

/-! # Theorems

## Splitting a string -/

open Watcher Frag

theorem strings.cut_single_fst (c : Char) (m : Str) :
    (match strings.cut [c] m with
      | some (a, _) => a
      | none => m) = m.takeWhile (fun x => x != c) := by
  induction m with
  | nil => simp [strings.cut]
  | cons x xs ih =>
    by_cases h : c = x
    · subst h
      simp [strings.cut, List.isPrefixOf]
    · have h2 : (x != c) = true := by simpa using fun e => h e.symm
      have h3 : ([c].isPrefixOf (x :: xs)) = false := by
        simp [List.isPrefixOf, h]
      simp only [strings.cut, h3, List.takeWhile_cons, h2]
      cases hc : strings.cut [c] xs with
      | none => simp [hc] at ih ⊢; exact ih
      | some p => obtain ⟨a, b⟩ := p; simp [hc] at ih ⊢; exact ih

theorem strings.Split_head_single (c : Char) (m : Str) :
    (strings.Split m [c])[0]? = some (m.takeWhile (fun x => x != c)) := by
  have h := strings.cut_single_fst c m
  unfold strings.Split
  simp only [List.cons_ne_nil, if_false]
  cases m with
  | nil => simp [strings.splitLoop]
  | cons x xs =>
    simp only [List.length_cons, strings.splitLoop]
    cases hc : strings.cut [c] (x :: xs) with
    | none => simp [hc] at h ⊢; exact h
    | some p => obtain ⟨a, b⟩ := p; simp [hc] at h ⊢; exact h

/-! ## Traces -/

theorem deliveries_append (a b : List Event) : deliveries (a ++ b) = deliveries a ++ deliveries b := by
  simp [deliveries, List.filterMap_append]

theorem attempted_append (a b : List Event) : attempted (a ++ b) = attempted a ++ attempted b := by
  simp [attempted, List.filterMap_append]

theorem pulled_append (a b : List Event) : pulled (a ++ b) = pulled a ++ pulled b := by
  simp [pulled, List.filterMap_append]

/-- `handleIfErr` only adds log lines. -/
theorem handleIfErr_spec (text : Str) (err : Option Error) (tr : List Event) :
    ∃ new, handleIfErr text err tr = tr ++ new ∧ deliveries new = [] ∧ attempted new = [] ∧
      pulled new = [] := by
  cases err with
  | none => exact ⟨[], by simp [handleIfErr], rfl, rfl, rfl⟩
  | some e => exact ⟨_, rfl, rfl, rfl, rfl⟩

theorem LocalMasterHash_eq (re : RegexpPkg) (w : Watcher) (out : Str) :
    LocalMasterHash re w out =
      some ((w.matchOf re out).takeWhile (fun x => x != ' '), w.compileErr re) := by
  unfold LocalMasterHash Watcher.matchOf Watcher.compileErr
  cases h : re.Compile w.GetCommitHash with
  | error e => simp
  | ok checker =>
    have h2 := strings.Split_head_single ' ' (re.FindString checker out)
    have h3 : " ".toList = [' '] := rfl
    simp only [h3, h2]

theorem RemoteMasterHash_eq (re : RegexpPkg) (w : Watcher) (out : Str) :
    RemoteMasterHash re w out =
      some ((w.matchOf re out).takeWhile (fun x => x != '\t'), w.compileErr re) := by
  unfold RemoteMasterHash Watcher.matchOf Watcher.compileErr
  cases h : re.Compile w.GetCommitHash with
  | error e => simp
  | ok checker =>
    have h2 := strings.Split_head_single '\t' (re.FindString checker out)
    have h3 : "\t".toList = ['\t'] := rfl
    simp only [h3, h2]

theorem takeWhile_ne_eq_iff (m : Str) :
    m.takeWhile (fun x => x != ' ') = m.takeWhile (fun x => x != '\t') ↔ ' ' ∉ m ∧ '\t' ∉ m := by
  induction m with
  | nil => simp
  | cons x xs ih =>
    by_cases h1 : x = ' '
    · subst h1; simp
    · by_cases h2 : x = '\t'
      · subst h2; simp
      · have e1 : (x != ' ') = true := by simpa using h1
        have e2 : (x != '\t') = true := by simpa using h2
        simp only [List.takeWhile_cons, e1, e2, if_true, List.cons.injEq, true_and, ih,
          List.mem_cons]
        constructor
        · rintro ⟨a, b⟩
          exact ⟨by rintro (h | h); exact h1 h.symm; exact a h,
                 by rintro (h | h); exact h2 h.symm; exact b h⟩
        · rintro ⟨a, b⟩
          exact ⟨fun h => a (Or.inr h), fun h => b (Or.inr h)⟩

/-! ## The job cycle -/

/-- The notification that `composeNotification` builds. -/
theorem composeNotification_spec (env : Env) (w : Watcher) (text ty lg : Str) (tr : List Event) :
    ∃ new, w.composeNotification env text ty lg tr = tr ++ new ∧
      deliveries new =
        (if w.Notifications = [] then []
         else [⟨w.Notifications, text ++ w.ServiceName, ty, lg⟩]) ∧
      attempted new = [] ∧ pulled new = [] ∧
      (w.Notifications ≠ [] →
        ∃ rest, new = Event.send ⟨w.Notifications, text ++ w.ServiceName, ty, lg⟩ :: rest ∧
          deliveries rest = []) := by
  unfold composeNotification SendNotification
  by_cases h : w.Notifications = []
  · exact ⟨[], by simp [h], by simp [h, deliveries], rfl, rfl, fun h2 => absurd h h2⟩
  · have hn : (if lg ≠ [] then
          ({ EndpointURL := w.Notifications, Title := text ++ w.ServiceName, Typ := ty,
             Log := lg } : Notification)
        else { EndpointURL := w.Notifications, Title := text ++ w.ServiceName, Typ := ty,
               Log := [] }) = ⟨w.Notifications, text ++ w.ServiceName, ty, lg⟩ := by
      by_cases hl : lg = []
      · simp [hl]
      · simp [hl]
    simp only [h, if_false, if_true, hn]
    obtain ⟨logs, e, d, a, p⟩ := handleIfErr_spec "Error sending notification".toList
      (env.Send tr ⟨w.Notifications, text ++ w.ServiceName, ty, lg⟩)
      (tr ++ [.send ⟨w.Notifications, text ++ w.ServiceName, ty, lg⟩])
    refine ⟨Event.send ⟨w.Notifications, text ++ w.ServiceName, ty, lg⟩ :: logs, ?_, ?_, ?_, ?_, ?_⟩
    · rw [e]; simp
    · have : deliveries (Event.send ⟨w.Notifications, text ++ w.ServiceName, ty, lg⟩ :: logs)
          = ⟨w.Notifications, text ++ w.ServiceName, ty, lg⟩ :: deliveries logs := by
        simp [deliveries]
      rw [this, d]
    · have : attempted (Event.send ⟨w.Notifications, text ++ w.ServiceName, ty, lg⟩ :: logs)
          = attempted logs := by simp [attempted]
      rw [this, a]
    · have : pulled (Event.send ⟨w.Notifications, text ++ w.ServiceName, ty, lg⟩ :: logs)
          = pulled logs := by simp [pulled]
      rw [this, p]
    · intro _; exact ⟨logs, rfl, d⟩

theorem PullRepository_spec (env : Env) (w : Watcher) (tr : List Event) :
    ∃ new, w.PullRepository env tr = tr ++ new ∧
      deliveries new = [] ∧ attempted new = [] ∧ pulled new = [w] := by
  unfold PullRepository
  obtain ⟨logs, e, d, a, p⟩ := handleIfErr_spec "Error pulling repository".toList
    (env.pull tr w) (tr ++ [.pull w])
  refine ⟨Event.pull w :: logs, ?_, ?_, ?_, ?_⟩
  · rw [e]; simp
  · have : deliveries (Event.pull w :: logs) = deliveries logs := by simp [deliveries]
    rw [this, d]
  · have : attempted (Event.pull w :: logs) = attempted logs := by simp [attempted]
    rw [this, a]
  · have : pulled (Event.pull w :: logs) = w :: pulled logs := by simp [pulled]
    rw [this, p]

theorem runCommands_spec (env : Env) (w : Watcher) (cs : List Str) (tr : List Event) :
    ∃ new, w.runCommands env cs tr = tr ++ new ∧
      deliveries new = [] ∧ attempted new = cs ∧ pulled new = [] := by
  induction cs generalizing tr with
  | nil => exact ⟨[], by simp [runCommands], rfl, rfl, rfl⟩
  | cons c rest ih =>
    simp only [runCommands]
    obtain ⟨logs, e, d, a, p⟩ := handleIfErr_spec "Error running command".toList
      (env.ExecCommand (tr ++ [.log ("-> '".toList ++ c ++ "'\n".toList)]) w c)
      (tr ++ [.log ("-> '".toList ++ c ++ "'\n".toList)] ++ [.exec w c])
    rw [e]
    obtain ⟨new, e2, d2, a2, p2⟩ := ih
      (tr ++ [.log ("-> '".toList ++ c ++ "'\n".toList)] ++ [.exec w c] ++ logs)
    refine ⟨[.log ("-> '".toList ++ c ++ "'\n".toList)] ++ [.exec w c] ++ logs ++ new,
      ?_, ?_, ?_, ?_⟩
    · rw [e2]; simp
    · rw [deliveries_append, deliveries_append, d, d2]; rfl
    · rw [attempted_append, attempted_append, a, a2]; rfl
    · rw [pulled_append, pulled_append, p, p2]; rfl

/-- The trace of a job cycle: the notification, then the pull, then the
commands. -/
theorem job_trace (env : Env) (w : Watcher) (tr : List Event) :
    (w.job env tr).1 = none ∧
    ∃ n1 n2 n3, (w.job env tr).2 = tr ++ (n1 ++ (n2 ++ n3)) ∧
      (deliveries n1 =
          (if w.Notifications = [] then []
           else [⟨w.Notifications, "Started job for service ".toList ++ w.ServiceName,
                  "info".toList, []⟩]) ∧
        attempted n1 = [] ∧ pulled n1 = []) ∧
      (deliveries n2 = [] ∧ attempted n2 = [] ∧ pulled n2 = [w]) ∧
      (deliveries n3 = [] ∧ attempted n3 = w.ServiceCommands ∧ pulled n3 = []) := by
  obtain ⟨n1, e1, d1, a1, p1, _⟩ := composeNotification_spec env w
    "Started job for service ".toList "info".toList [] tr
  obtain ⟨n2, e2, d2, a2, p2⟩ := PullRepository_spec env w (tr ++ n1)
  obtain ⟨n3, e3, d3, a3, p3⟩ := runCommands_spec env w w.ServiceCommands (tr ++ n1 ++ n2)
  unfold job
  simp only [e1, e2]
  by_cases h : w.ServiceCommands.length = 0
  · have hc : w.ServiceCommands = [] := List.length_eq_zero.mp h
    simp only [h, if_true]
    exact ⟨trivial, n1, n2, [], by simp, ⟨d1, a1, p1⟩, ⟨d2, a2, p2⟩, ⟨rfl, by simp [attempted, hc], rfl⟩⟩
  · simp only [h, if_false, e3]
    exact ⟨trivial, n1, n2, n3, by simp, ⟨d1, a1, p1⟩, ⟨d2, a2, p2⟩, ⟨d3, a3, p3⟩⟩

/-! ## Change detection -/

/-- When a notification endpoint is set, the job's notification is the first
event of the cycle. -/
theorem job_trace_head (env : Env) (w : Watcher) (tr : List Event) (h : w.Notifications ≠ []) :
    ∃ rest, (w.job env tr).2 =
        tr ++ Event.send ⟨w.Notifications, "Started job for service ".toList ++ w.ServiceName,
          "info".toList, []⟩ :: rest ∧
      deliveries rest = [] ∧ pulled rest = [w] ∧ attempted rest = w.ServiceCommands := by
  obtain ⟨n1, e1, _, a1, p1, hd⟩ := composeNotification_spec env w
    "Started job for service ".toList "info".toList [] tr
  obtain ⟨r1, er, dr⟩ := hd h
  have ar : attempted r1 = [] := by
    have := a1; rw [er] at this; simpa [attempted] using this
  have pr : pulled r1 = [] := by
    have := p1; rw [er] at this; simpa [pulled] using this
  obtain ⟨n2, e2, d2, a2, p2⟩ := PullRepository_spec env w (tr ++ n1)
  obtain ⟨n3, e3, d3, a3, p3⟩ := runCommands_spec env w w.ServiceCommands (tr ++ n1 ++ n2)
  unfold job
  simp only [e1, e2]
  by_cases hc : w.ServiceCommands.length = 0
  · have hc2 : w.ServiceCommands = [] := List.length_eq_zero.mp hc
    simp only [hc, if_true]
    refine ⟨r1 ++ n2, by rw [er]; simp, ?_, ?_, ?_⟩
    · rw [deliveries_append, dr, d2]; rfl
    · rw [pulled_append, pr, p2]; rfl
    · rw [attempted_append, ar, a2, hc2]; rfl
  · simp only [hc, if_false, e3]
    refine ⟨r1 ++ n2 ++ n3, by rw [er]; simp, ?_, ?_, ?_⟩
    · rw [deliveries_append, deliveries_append, dr, d2, d3]; rfl
    · rw [pulled_append, pulled_append, pr, p2, p3]; rfl
    · rw [attempted_append, attempted_append, ar, a2, a3]; rfl

/-- What `HasChanged` returns, from the two extracted hashes. -/
theorem hasChanged_spec (re : RegexpPkg) (env : Env) (w : Watcher) (tr : List Event)
    (lh rh : Str) (e1 e2 : Option Error)
    (hl : w.LocalMasterHash re (env.showRef tr w.ServicePath) = some (lh, e1))
    (hr : w.RemoteMasterHash re
      (env.lsRemote (handleIfErr "Error getting local hash".toList e1 tr) w.ServicePath)
        = some (rh, e2)) :
    ∃ logs, deliveries logs = [] ∧ attempted logs = [] ∧ pulled logs = [] ∧
      w.HasChanged re env tr = some (decide (rh ≠ lh), tr ++ logs) := by
  obtain ⟨l1, x1, d1, a1, p1⟩ := handleIfErr_spec "Error getting local hash".toList e1 tr
  obtain ⟨l2, x2, d2, a2, p2⟩ := handleIfErr_spec "Error getting master hash".toList e2 (tr ++ l1)
  refine ⟨l1 ++ l2, ?_, ?_, ?_, ?_⟩
  · rw [deliveries_append, d1, d2]; rfl
  · rw [attempted_append, a1, a2]; rfl
  · rw [pulled_append, p1, p2]; rfl
  · unfold HasChanged
    rw [x1] at hr
    simp only [hl, x1, hr, x2]
    by_cases h : rh = lh
    · simp [h]
    · simp [h]

/-- One turn of the loop of `Start`, from the two extracted hashes. -/
theorem startIter_spec (re : RegexpPkg) (env : Env) (w : Watcher) (tr : List Event)
    (lh rh : Str) (e1 e2 : Option Error)
    (hl : w.LocalMasterHash re (env.showRef tr w.ServicePath) = some (lh, e1))
    (hr : w.RemoteMasterHash re
      (env.lsRemote (handleIfErr "Error getting local hash".toList e1 tr) w.ServicePath)
        = some (rh, e2)) :
    ∃ logs, w.HasChanged re env tr = some (decide (rh ≠ lh), tr ++ logs) ∧
      w.StartIter re env tr =
        some ((if rh ≠ lh then (w.job env (tr ++ logs)).2 else tr ++ logs) ++ [.sleep 5]) ∧
      ∃ new, w.StartIter re env tr = some (tr ++ new) ∧
        pulled new = (if rh ≠ lh then [w] else []) ∧
        attempted new = (if rh ≠ lh then w.ServiceCommands else []) := by
  obtain ⟨logs, d, a, p, e⟩ := hasChanged_spec re env w tr lh rh e1 e2 hl hr
  refine ⟨logs, e, ?_, ?_⟩
  · unfold StartIter
    simp only [e]
    by_cases h : rh = lh <;> simp [h]
  · unfold StartIter
    simp only [e]
    by_cases h : rh = lh
    · refine ⟨logs ++ [.sleep 5], by simp [h], ?_, ?_⟩
      · rw [pulled_append, p]; simp [h, pulled]
      · rw [attempted_append, a]; simp [h, attempted]
    · obtain ⟨_, n1, n2, n3, ej, ⟨_, a1, p1⟩, ⟨_, a2, p2⟩, ⟨_, a3, p3⟩⟩ := job_trace env w (tr ++ logs)
      refine ⟨logs ++ (n1 ++ (n2 ++ n3)) ++ [.sleep 5], by simp [h, ej], ?_, ?_⟩
      · simp only [pulled_append, p, p1, p2, p3]; simp [h, pulled]
      · simp only [attempted_append, a, a1, a2, a3]; simp [h, attempted]

/-- One turn of the loop of `Start` never panics. -/
theorem startIter_returns (re : RegexpPkg) (env : Env) (w : Watcher) (tr : List Event) :
    ∃ new, w.StartIter re env tr = some (tr ++ new) := by
  obtain ⟨_, _, _, new, e, _⟩ := startIter_spec re env w tr _ _ _ _
    (LocalMasterHash_eq re w _) (RemoteMasterHash_eq re w _)
  exact ⟨new, e⟩

/-! ## Start-up -/

theorem setCommands_spec (env : Env) (options : List (Str × Value)) (w : Watcher)
    (tr : List Event) :
    (setCommands env options w tr).1.ServiceName = w.ServiceName ∧
    (setCommands env options w tr).1.Notifications = w.Notifications ∧
    (setCommands env options w tr).1.Branch = w.Branch ∧
    ∃ logs, (setCommands env options w tr).2 = tr ++ logs ∧ deliveries logs = [] := by
  unfold setCommands
  cases options.lookup "command".toList with
  | none => exact ⟨rfl, rfl, rfl, [], by simp, rfl⟩
  | some v =>
    obtain ⟨logs, e, d, _, _⟩ := handleIfErr_spec [] (env.ParseCommands v).2 tr
    exact ⟨rfl, rfl, rfl, logs, e, d⟩

theorem setBranch_inv (options : List (Str × Value)) (w w2 : Watcher)
    (h : setBranch options w = some w2) :
    w2.ServiceName = w.ServiceName ∧ w2.Notifications = w.Notifications ∧
    (options.lookup "branch".toList = none → w2.Branch = w.Branch) ∧
    (∀ b, options.lookup "branch".toList = some (.str b) → w2.Branch = b) := by
  unfold setBranch at h
  cases hb : options.lookup "branch".toList with
  | none =>
    rw [hb] at h
    injection h with h
    subst h
    exact ⟨rfl, rfl, fun _ => rfl, fun b hb2 => by simp at hb2⟩
  | some v =>
    rw [hb] at h
    cases v with
    | str b =>
      simp only [assertString] at h
      injection h with h
      subst h
      refine ⟨rfl, rfl, fun hn => by simp at hn, fun b2 hb2 => ?_⟩
      injection hb2 with hb2; injection hb2 with hb2
    | list ss => simp [assertString] at h
    | other t => simp [assertString] at h

/-- The watcher that the body of the loop of `WatchCommits` builds, and its
start-up trace, when the body does not panic. -/
theorem newWatcher_inv (env : Env) (c : ServerConfig) (service : Str)
    (options : List (Str × Value)) (tr : List Event) (w : Watcher) (tr1 : List Event)
    (h : newWatcher env c service options tr = some (w, tr1)) :
    w.ServiceName = service ∧ w.Notifications = c.NotificationURL ∧
    (options.lookup "branch".toList = none → w.Branch = "master".toList) ∧
    (∀ b, options.lookup "branch".toList = some (.str b) → w.Branch = b) ∧
    ∃ new, tr1 = tr ++ new ∧
      deliveries new =
        (if c.NotificationURL = [] then []
         else [⟨c.NotificationURL, "Started CI for ".toList ++ service, "success".toList, []⟩]) := by
  rw [newWatcher] at h
  cases hp : assertString (options.lookup "path".toList) with
  | none => rw [hp] at h; simp at h
  | some path =>
    rw [hp] at h
    simp only at h
    obtain ⟨c1, c2, c3, logs, el, dl⟩ := setCommands_spec env options
      ({ ServiceName := service, ServicePath := c.Dir ++ "/".toList ++ path,
         ServiceCommands := [], Notifications := c.NotificationURL,
         Branch := "master".toList } : Watcher) tr
    cases hs : setBranch options (setCommands env options
      ({ ServiceName := service, ServicePath := c.Dir ++ "/".toList ++ path,
         ServiceCommands := [], Notifications := c.NotificationURL,
         Branch := "master".toList } : Watcher) tr).1 with
    | none => rw [hs] at h; simp at h
    | some w2 =>
      rw [hs] at h
      simp only at h
      injection h with h
      injection h with hw ht
      subst hw
      obtain ⟨b1, b2, b3, b4⟩ := setBranch_inv options _ _ hs
      obtain ⟨n, e, d, _, _, _⟩ := composeNotification_spec env w2
        "Started CI for ".toList "success".toList [] (tr ++ logs)
      rw [c1] at b1
      rw [c2] at b2
      rw [c3] at b3
      refine ⟨b1, b2, b3, b4, logs ++ n, ?_, ?_⟩
      · rw [← ht, el, e]; simp
      · rw [deliveries_append, dl, d, b1, b2]; rfl

/-- The body of the loop of `WatchCommits` does not panic when the option
`path` is a string and the option `branch` is absent or a string. -/
theorem newWatcher_returns (env : Env) (c : ServerConfig) (service : Str)
    (options : List (Str × Value)) (tr : List Event) (path : Str)
    (hp : options.lookup "path".toList = some (.str path))
    (hb : options.lookup "branch".toList = none ∨
      ∃ b, options.lookup "branch".toList = some (.str b)) :
    ∃ w tr1, newWatcher env c service options tr = some (w, tr1) := by
  rw [newWatcher, hp]
  simp only [assertString]
  rcases hb with hb | ⟨b, hb⟩
  · rw [setBranch, hb]
    exact ⟨_, _, rfl⟩
  · rw [setBranch, hb]
    exact ⟨_, _, rfl⟩

/-- Start-up of all services: one watcher per service, in order. -/
theorem watchAll_inv (env : Env) (c : ServerConfig) (svcs : List (Str × List (Str × Value)))
    (tr : List Event) (ws : List Watcher) (tr1 : List Event)
    (h : watchAll env c svcs tr = some (ws, tr1)) :
    List.Forall₂ (fun so w => w.ServiceName = so.1 ∧
        (so.2.lookup "branch".toList = none → w.Branch = "master".toList) ∧
        (∀ b, so.2.lookup "branch".toList = some (.str b) → w.Branch = b)) svcs ws ∧
    ∃ new, tr1 = tr ++ new ∧
      deliveries new =
        (if c.NotificationURL = [] then []
         else ws.map fun w =>
           ⟨c.NotificationURL, "Started CI for ".toList ++ w.ServiceName, "success".toList, []⟩) := by
  induction svcs generalizing tr ws tr1 with
  | nil =>
    simp only [watchAll] at h
    injection h with h
    injection h with hw ht
    subst hw; subst ht
    exact ⟨List.Forall₂.nil, [], by simp, by simp [deliveries]⟩
  | cons so rest ih =>
    obtain ⟨service, options⟩ := so
    simp only [watchAll] at h
    cases hn : newWatcher env c service options tr with
    | none => simp [hn] at h
    | some p =>
      obtain ⟨w, t1⟩ := p
      simp only [hn] at h
      cases hr : watchAll env c rest t1 with
      | none => simp [hr] at h
      | some q =>
        obtain ⟨ws2, t2⟩ := q
        simp only [hr] at h
        injection h with h
        injection h with hw ht
        subst hw; subst ht
        obtain ⟨hname, _, hb1, hb2, n1, e1, d1⟩ := newWatcher_inv env c service options tr w t1 hn
        obtain ⟨hall, n2, e2, d2⟩ := ih t1 ws2 t2 hr
        refine ⟨List.Forall₂.cons ⟨hname, hb1, hb2⟩ hall, n1 ++ n2, ?_, ?_⟩
        · rw [e2, e1]; simp
        · rw [deliveries_append, d1, d2]
          by_cases hu : c.NotificationURL = []
          · simp [hu]
          · simp [hu, hname]

/-! ## The pattern of a branch name without metacharacters -/

theorem Frag.run_append (st : PState) (a b : Str) :
    run st (a ++ b) =
      match run st a with
      | .ok st1 => run st1 b
      | .bad e => .bad e
      | .outside => .outside := by
  induction a generalizing st with
  | nil => simp [run]
  | cons c cs ih =>
    simp only [List.cons_append, run]
    cases step st c with
    | ok st1 => exact ih st1
    | bad e => rfl
    | outside => rfl

theorem Frag.step_lit (alts : List Alt) (rev : List Inst) (last : Last) (c : Char)
    (h : isMeta c = false) :
    step ⟨alts, rev, last, .top⟩ c = .ok ⟨alts, .one (.lit c) :: rev, .atom, .top⟩ := by
  simp only [isMeta, Bool.or_eq_false_iff, decide_eq_false_iff_not] at h
  obtain ⟨⟨⟨⟨⟨⟨⟨⟨⟨⟨⟨⟨⟨h1, h2⟩, h3⟩, h4⟩, h5⟩, h6⟩, h7⟩, h8⟩, h9⟩, h10⟩, h11⟩, h12⟩, h13⟩, h14⟩ := h
  simp [step, pushAtom, h1, h2, h3, h4, h5, h6, h7, h8, h9, h10, h11, h12, h13, h14]

theorem Frag.run_lits (alts : List Alt) (rev : List Inst) (b : Str)
    (hb : ∀ c ∈ b, isMeta c = false) (hne : b ≠ []) (last : Last) :
    run ⟨alts, rev, last, .top⟩ b = .ok ⟨alts, (lits b).reverse ++ rev, .atom, .top⟩ := by
  induction b generalizing rev last with
  | nil => exact absurd rfl hne
  | cons c cs ih =>
    have hc : isMeta c = false := hb c (List.mem_cons_self _ _)
    simp only [run, Frag.step_lit alts rev last c hc]
    by_cases hcs : cs = []
    · subst hcs; simp [run, lits]
    · rw [ih _ (fun x hx => hb x (List.mem_cons_of_mem _ hx)) hcs]
      simp [lits]

theorem Frag.parse_hashPattern (b : Str) (hb : ∀ c ∈ b, isMeta c = false) :
    parse ("(?m)[a-z0-9]{40}\\srefs/heads/".toList ++ b ++ "$".toList) = .ok [hashPattern b] := by
  have e1 : "(?m)[a-z0-9]{40}\\srefs/heads/".toList =
      '(' :: '?' :: 'm' :: ')' :: ("[a-z0-9]{40}\\s".toList ++ "refs/heads/".toList) := by decide
  have e2 : run ⟨[], [], .start, .top⟩ "[a-z0-9]{40}\\s".toList =
      .ok ⟨[], .one .space :: List.replicate 40 (.one lowerAlnum), .atom, .top⟩ := by decide
  have hl : ∀ c ∈ "refs/heads/".toList ++ b, isMeta c = false := by
    intro c hc
    rcases List.mem_append.mp hc with h | h
    · have hall : ∀ x ∈ "refs/heads/".toList, isMeta x = false := by decide
      exact hall c h
    · exact hb c h
  have hne : "refs/heads/".toList ++ b ≠ [] := by
    intro h
    have := congrArg List.length h
    simp at this
  rw [e1]
  simp only [List.cons_append, parse, List.append_assoc]
  rw [Frag.run_append, e2]
  simp only
  rw [← List.append_assoc, Frag.run_append, Frag.run_lits _ _ _ hl hne]
  have e3 : "$".toList = ['$'] := rfl
  simp only [e3, run, step]
  simp [finish, hashPattern, List.reverse_append]

/-! ## What the pattern matches -/

theorem Frag.matchHere_endLine (s m : Str) :
    matchHere [.endLine] s = some m ↔ atEol s = true ∧ m = [] := by
  cases s with
  | nil => simp [matchHere, atEol, eq_comm]
  | cons c t =>
    by_cases h : c = '\n'
    · simp [matchHere, atEol, h, eq_comm]
    · simp [matchHere, atEol, h]

theorem Frag.matchHere_lits_eol (l s m : Str) :
    matchHere (lits l ++ [.endLine]) s = some m ↔
      ∃ post, s = l ++ post ∧ atEol post = true ∧ m = l := by
  induction l generalizing s m with
  | nil =>
    simp only [lits, List.map_nil, List.nil_append, Frag.matchHere_endLine]
    constructor
    · rintro ⟨h1, h2⟩; exact ⟨s, rfl, h1, h2⟩
    · rintro ⟨post, h1, h2, h3⟩; subst h1; exact ⟨h2, h3⟩
  | cons c l ih =>
    have e : lits (c :: l) ++ [Inst.endLine] = .one (.lit c) :: (lits l ++ [.endLine]) := by
      simp [lits]
    rw [e]
    cases s with
    | nil =>
      simp [matchHere]
    | cons x t =>
      simp only [matchHere, CharSet.test]
      by_cases hx : x = c
      · subst hx
        simp only [decide_True, if_true, Option.map_eq_some']
        constructor
        · rintro ⟨a, ha, rfl⟩
          obtain ⟨post, h1, h2, h3⟩ := (ih t a).mp ha
          exact ⟨post, by rw [h1]; rfl, h2, by rw [h3]⟩
        · rintro ⟨post, h1, h2, h3⟩
          simp only [List.cons_append, List.cons.injEq, true_and] at h1
          exact ⟨l, (ih t l).mpr ⟨post, h1, h2, rfl⟩, h3.symm⟩
      · simp only [hx, decide_False, Bool.false_eq_true, if_false]
        constructor
        · intro hm; exact absurd hm (by simp)
        · rintro ⟨post, h1, _, _⟩
          simp only [List.cons_append, List.cons.injEq] at h1
          exact absurd h1.1 hx

theorem Frag.matchHere_class_space (cs : CharSet) (n : Nat) (tail : Alt) (s m : Str) :
    matchHere (List.replicate n (.one cs) ++ .one .space :: tail) s = some m ↔
      ∃ h c v t, s = h ++ c :: v ∧ h.length = n ∧ (∀ x ∈ h, cs.test x = true) ∧
        isSpace c = true ∧ matchHere tail v = some t ∧ m = h ++ c :: t := by
  induction n generalizing s m with
  | zero =>
    simp only [List.replicate_zero, List.nil_append]
    cases s with
    | nil =>
      simp only [matchHere]
      constructor
      · intro hm; exact absurd hm (by simp)
      · rintro ⟨h, c, v, t, e, _⟩
        simp at e
    | cons x r =>
      simp only [matchHere, CharSet.test]
      constructor
      · intro hm
        by_cases hx : isSpace x = true
        · simp only [hx, if_true, Option.map_eq_some'] at hm
          obtain ⟨a, ha, rfl⟩ := hm
          exact ⟨[], x, r, a, rfl, rfl, by simp, hx, ha, rfl⟩
        · simp [hx] at hm
      · rintro ⟨h, c, v, t, e, hl, _, hc, ht, rfl⟩
        have hh : h = [] := List.length_eq_zero.mp hl
        subst hh
        simp only [List.nil_append, List.cons.injEq] at e
        obtain ⟨rfl, rfl⟩ := e
        simp [hc, ht]
  | succ n ih =>
    have e : List.replicate (n + 1) (Inst.one cs) ++ .one .space :: tail =
        .one cs :: (List.replicate n (.one cs) ++ .one .space :: tail) := by
      simp [List.replicate_succ]
    rw [e]
    cases s with
    | nil =>
      simp only [matchHere]
      constructor
      · intro hm; exact absurd hm (by simp)
      · rintro ⟨h, c, v, t, e, _⟩
        simp at e
    | cons x r =>
      simp only [matchHere]
      constructor
      · intro hm
        by_cases hx : cs.test x = true
        · simp only [hx, if_true, Option.map_eq_some'] at hm
          obtain ⟨a, ha, rfl⟩ := hm
          obtain ⟨h, c, v, t, e1, hl, hall, hc, ht, rfl⟩ := (ih r a).mp ha
          refine ⟨x :: h, c, v, t, by rw [e1]; rfl, by simp [hl], ?_, hc, ht, rfl⟩
          intro y hy
          rcases List.mem_cons.mp hy with rfl | hy
          · exact hx
          · exact hall y hy
        · simp [hx] at hm
      · rintro ⟨h, c, v, t, e1, hl, hall, hc, ht, rfl⟩
        cases h with
        | nil => simp at hl
        | cons y h2 =>
          simp only [List.cons_append, List.cons.injEq] at e1
          obtain ⟨rfl, rfl⟩ := e1
          have hx : cs.test x = true := hall x (List.mem_cons_self _ _)
          simp only [hx, if_true, Option.map_eq_some']
          refine ⟨h2 ++ c :: t, ?_, rfl⟩
          exact (ih _ _).mpr ⟨h2, c, v, t, rfl, by simpa using hl,
            fun z hz => hall z (List.mem_cons_of_mem _ hz), hc, ht, rfl⟩

/-- What the pattern of a branch name without metacharacters matches at the
head of a text. -/
theorem Frag.matchHere_hashPattern (b s m : Str) :
    matchHere (hashPattern b) s = some m ↔
      ∃ h c post, s = h ++ c :: ("refs/heads/".toList ++ b ++ post) ∧ h.length = 40 ∧
        (∀ x ∈ h, lowerAlnum.test x = true) ∧ isSpace c = true ∧ atEol post = true ∧
        m = h ++ c :: ("refs/heads/".toList ++ b) := by
  unfold hashPattern
  rw [Frag.matchHere_class_space]
  constructor
  · rintro ⟨h, c, v, t, e, hl, hall, hc, ht, rfl⟩
    obtain ⟨post, e2, hp, rfl⟩ := (Frag.matchHere_lits_eol _ _ _).mp ht
    exact ⟨h, c, post, by rw [e, e2], hl, hall, hc, hp, rfl⟩
  · rintro ⟨h, c, post, e, hl, hall, hc, hp, rfl⟩
    exact ⟨h, c, _, _, e, hl, hall, hc,
      (Frag.matchHere_lits_eol _ _ _).mpr ⟨post, rfl, hp, rfl⟩, rfl⟩

theorem Frag.matchAlts_single (alt : Alt) (s : Str) : matchAlts [alt] s = matchHere alt s := by
  simp only [matchAlts]
  cases matchHere alt s <;> rfl

theorem Frag.find_some (re : Regexp) (s m : Str) (h : find re s = some m) :
    ∃ pre post, s = pre ++ post ∧ matchAlts re post = some m := by
  induction s with
  | nil => exact ⟨[], [], rfl, by simpa [find] using h⟩
  | cons c cs ih =>
    simp only [find] at h
    cases hm : matchAlts re (c :: cs) with
    | some m2 =>
      rw [hm] at h
      simp only [Option.some.injEq] at h
      subst h
      exact ⟨[], c :: cs, rfl, hm⟩
    | none =>
      rw [hm] at h
      obtain ⟨pre, post, e, hp⟩ := ih h
      exact ⟨c :: pre, post, by rw [e]; rfl, hp⟩

/-! ## Leftmost match in a listing -/

theorem Frag.find_of_matchHere (alt : Alt) (s m : Str) (h : matchHere alt s = some m) :
    find [alt] s = some m := by
  rw [← Frag.matchAlts_single] at h
  cases s with
  | nil => simpa [find] using h
  | cons c cs => simp [find, h]

theorem Frag.lowerAlnum_not_space (x : Char) (h : lowerAlnum.test x = true) :
    isSpace x = false := by
  cases hs : isSpace x with
  | false => rfl
  | true =>
    exfalso
    simp only [isSpace, Bool.or_eq_true, decide_eq_true_eq] at hs
    rcases hs with (((h1 | h1) | h1) | h1) | h1 <;> subst h1 <;> revert h <;> decide

theorem lowerHex_lowerAlnum (x : Char) (h : isLowerHex x = true) : lowerAlnum.test x = true := by
  have e0 : '0'.toNat = 48 := by decide
  have e9 : '9'.toNat = 57 := by decide
  have ea : 'a'.toNat = 97 := by decide
  have ef : 'f'.toNat = 102 := by decide
  have ez : 'z'.toNat = 122 := by decide
  simp only [isLowerHex, e0, e9, ea, ef, Bool.or_eq_true, Bool.and_eq_true, decide_eq_true_eq] at h
  simp only [lowerAlnum, CharSet.test, inRanges, List.any_cons, List.any_nil, e0, e9, ea, ez,
    Bool.or_false, Bool.or_eq_true, decide_eq_true_eq]
  omega

theorem lowerHex_ne_r (x : Char) (h : isLowerHex x = true) : x ≠ 'r' := by
  rintro rfl
  revert h
  decide

theorem isHexHash_spec (h : Str) (hh : isHexHash h = true) :
    h.length = 40 ∧ (∀ x ∈ h, isLowerHex x = true) := by
  simpa [isHexHash] using hh

/-- A text is cut in one way only at its first whitespace character. -/
theorem first_space_unique (u h v r : Str) (w c : Char)
    (e : u ++ w :: v = h ++ c :: r)
    (hu : ∀ x ∈ u, isSpace x = false) (hh : ∀ x ∈ h, isSpace x = false)
    (hw : isSpace w = true) (hc : isSpace c = true) : u = h ∧ w = c ∧ v = r := by
  induction u generalizing h with
  | nil =>
    cases h with
    | nil => simpa using e
    | cons y h2 =>
      simp only [List.nil_append, List.cons_append, List.cons.injEq] at e
      have := hh y (List.mem_cons_self _ _)
      rw [← e.1, hw] at this
      exact absurd this (by simp)
  | cons x u2 ih =>
    cases h with
    | nil =>
      simp only [List.nil_append, List.cons_append, List.cons.injEq] at e
      have := hu x (List.mem_cons_self _ _)
      rw [e.1, hc] at this
      exact absurd this (by simp)
    | cons y h2 =>
      simp only [List.cons_append, List.cons.injEq] at e
      obtain ⟨h1, h2', h3⟩ := ih h2 e.2 (fun z hz => hu z (List.mem_cons_of_mem _ hz))
        (fun z hz => hh z (List.mem_cons_of_mem _ hz))
      exact ⟨by rw [e.1, h1], h2', h3⟩

/-- A text is cut in one way only at its first end of line. -/
theorem eol_unique (b name post t : Str) (e : b ++ post = name ++ t)
    (hb : ∀ x ∈ b, x ≠ '\n') (hn : ∀ x ∈ name, x ≠ '\n')
    (hp : atEol post = true) (ht : atEol t = true) : b = name := by
  induction b generalizing name with
  | nil =>
    cases name with
    | nil => rfl
    | cons y n2 =>
      simp only [List.nil_append, List.cons_append] at e
      subst e
      simp only [atEol, decide_eq_true_eq] at hp
      exact absurd hp (hn y (List.mem_cons_self _ _))
  | cons x b2 ih =>
    cases name with
    | nil =>
      simp only [List.nil_append, List.cons_append] at e
      subst e
      simp only [atEol, decide_eq_true_eq] at ht
      exact absurd ht (hb x (List.mem_cons_self _ _))
    | cons y n2 =>
      simp only [List.cons_append, List.cons.injEq] at e
      rw [e.1, ih n2 e.2 (fun z hz => hb z (List.mem_cons_of_mem _ hz))
        (fun z hz => hn z (List.mem_cons_of_mem _ hz))]

/-- No match starts inside a run without whitespace that is followed by a
whitespace character after which the ref does not stand. -/
theorem Frag.find_skip (b u v : Str) (w : Char)
    (hu : ∀ x ∈ u, isSpace x = false) (hw : isSpace w = true)
    (hv : ¬ ∃ post, v = "refs/heads/".toList ++ b ++ post ∧ atEol post = true) :
    find [hashPattern b] (u ++ w :: v) = find [hashPattern b] v := by
  have key : ∀ u2 : Str, (∀ x ∈ u2, isSpace x = false) →
      matchAlts [hashPattern b] (u2 ++ w :: v) = none := by
    intro u2 hu2
    rw [Frag.matchAlts_single]
    cases hm : matchHere (hashPattern b) (u2 ++ w :: v) with
    | none => rfl
    | some m =>
      exfalso
      obtain ⟨h, c, post, e, _, hall, hc, hp, _⟩ := (Frag.matchHere_hashPattern b _ m).mp hm
      obtain ⟨_, _, e3⟩ := first_space_unique u2 h v _ w c e hu2
        (fun x hx => Frag.lowerAlnum_not_space x (hall x hx)) hw hc
      exact hv ⟨post, e3, hp⟩
  induction u with
  | nil =>
    have := key [] (by simp)
    simp only [List.nil_append] at this ⊢
    simp [find, this]
  | cons x u2 ih =>
    have := key (x :: u2) hu
    simp only [List.cons_append] at this ⊢
    simp only [find, this]
    exact ih (fun z hz => hu z (List.mem_cons_of_mem _ hz))

/-- No match in a text without whitespace. -/
theorem Frag.find_no_space (b s : Str) (hs : ∀ x ∈ s, isSpace x = false) :
    find [hashPattern b] s = none := by
  have key : ∀ s2 : Str, (∀ x ∈ s2, isSpace x = false) →
      matchAlts [hashPattern b] s2 = none := by
    intro s2 hs2
    rw [Frag.matchAlts_single]
    cases hm : matchHere (hashPattern b) s2 with
    | none => rfl
    | some m =>
      exfalso
      obtain ⟨h, c, post, e, _, _, hc, _, _⟩ := (Frag.matchHere_hashPattern b _ m).mp hm
      have := hs2 c (by rw [e]; simp)
      rw [hc] at this
      exact absurd this (by simp)
  induction s with
  | nil => simpa [find] using key [] (by simp)
  | cons x s2 ih =>
    simp only [find, key (x :: s2) hs]
    exact ih (fun z hz => hs z (List.mem_cons_of_mem _ hz))

theorem alnum_not_meta (c : Char) (h : c.isAlphanum = true) : isMeta c = false := by
  cases hm : isMeta c with
  | false => rfl
  | true =>
    exfalso
    simp only [isMeta, Bool.or_eq_true, decide_eq_true_eq] at hm
    rcases hm with
      ((((((((((((h1 | h1) | h1) | h1) | h1) | h1) | h1) | h1) | h1) | h1) | h1) | h1) | h1) | h1
      <;> subst h1 <;> revert h <;> decide

theorem alnum_ne_newline (c : Char) (h : c.isAlphanum = true) : c ≠ '\n' := by
  rintro rfl
  revert h
  decide

theorem not_space_ne_newline (c : Char) (h : isSpace c = false) : c ≠ '\n' := by
  rintro rfl
  revert h
  decide

theorem takeWhile_until_sep (h rest : Str) (c : Char) (hh : ∀ x ∈ h, x ≠ c) :
    (h ++ c :: rest).takeWhile (fun x => x != c) = h := by
  induction h with
  | nil => simp
  | cons y h2 ih =>
    have hy : (y != c) = true := by simpa using hh y (List.mem_cons_self _ _)
    simp only [List.cons_append, List.takeWhile_cons, hy, if_true]
    rw [ih (fun z hz => hh z (List.mem_cons_of_mem _ hz))]

theorem takeWhile_past (h rest : Str) (c d : Char) (hh : ∀ x ∈ h, x ≠ c) (hd : d ≠ c) :
    (h ++ d :: rest).takeWhile (fun x => x != c) = h ++ d :: rest.takeWhile (fun x => x != c) := by
  induction h with
  | nil =>
    have : (d != c) = true := by simpa using hd
    simp [List.takeWhile_cons, this]
  | cons y h2 ih =>
    have hy : (y != c) = true := by simpa using hh y (List.mem_cons_self _ _)
    simp only [List.cons_append, List.takeWhile_cons, hy, if_true]
    rw [ih (fun z hz => hh z (List.mem_cons_of_mem _ hz))]

theorem refsHeads_no_space (name : Str) (hn : ∀ c ∈ name, isSpace c = false) :
    ∀ x ∈ "refs/heads/".toList ++ name, isSpace x = false := by
  intro x hx
  rcases List.mem_append.mp hx with h | h
  · have hall : ∀ y ∈ "refs/heads/".toList, isSpace y = false := by decide
    exact hall x h
  · exact hn x h

theorem listing_not_ref (sep : Char) (ls : List RefLine) (nl : Bool) (b : Str)
    (hwf : ∀ l ∈ ls, l.wf) :
    ¬ ∃ post, listing sep ls nl = "refs/heads/".toList ++ b ++ post ∧ atEol post = true := by
  rintro ⟨post, e, _⟩
  cases ls with
  | nil => simp [listing] at e
  | cons l rest =>
    obtain ⟨hh, _⟩ := hwf l (List.mem_cons_self _ _)
    obtain ⟨hlen, hhex⟩ := isHexHash_spec _ hh
    cases hl : l.hash with
    | nil => rw [hl] at hlen; simp at hlen
    | cons y ys =>
      have hy : isLowerHex y = true := hhex y (by rw [hl]; exact List.mem_cons_self _ _)
      have e2 : "refs/heads/".toList = 'r' :: "efs/heads/".toList := rfl
      simp only [listing, RefLine.text, hl, e2, List.cons_append, List.cons.injEq] at e
      exact lowerHex_ne_r y hy e.1

/-- In a listing of well-formed lines the leftmost match of the pattern of
`b` is the first line whose branch is `b`. -/
theorem Frag.find_listing (b : Str) (hb : ∀ x ∈ b, x ≠ '\n') (sep : Char)
    (hsep : isSpace sep = true) (ls : List RefLine) (nl : Bool) (hwf : ∀ l ∈ ls, l.wf) :
    find [hashPattern b] (listing sep ls nl) =
      (ls.find? fun l => decide (l.name = b)).map (RefLine.text sep) := by
  induction ls with
  | nil => simpa [listing] using Frag.find_no_space b [] (by simp)
  | cons l rest ih =>
    obtain ⟨hh, hname⟩ := hwf l (List.mem_cons_self _ _)
    obtain ⟨hlen, hhex⟩ := isHexHash_spec _ hh
    have hwf2 : ∀ l ∈ rest, l.wf := fun z hz => hwf z (List.mem_cons_of_mem _ hz)
    have hT : atEol (if (rest.isEmpty && !nl) = true then [] else '\n' :: listing sep rest nl)
        = true := by
      by_cases hc : (rest.isEmpty && !nl) = true
      · simp [hc, atEol]
      · simp [hc, atEol]
    have hshape : listing sep (l :: rest) nl =
        l.hash ++ sep :: ("refs/heads/".toList ++ l.name ++
          (if (rest.isEmpty && !nl) = true then [] else '\n' :: listing sep rest nl)) := by
      simp [listing, RefLine.text]
    rw [hshape]
    by_cases hnb : l.name = b
    · have hm : matchHere (hashPattern b) (l.hash ++ sep :: ("refs/heads/".toList ++ l.name ++
          (if (rest.isEmpty && !nl) = true then [] else '\n' :: listing sep rest nl))) =
          some (l.hash ++ sep :: ("refs/heads/".toList ++ b)) := by
        rw [Frag.matchHere_hashPattern]
        exact ⟨l.hash, sep, _, by rw [hnb], hlen,
          fun x hx => lowerHex_lowerAlnum x (hhex x hx), hsep, hT, rfl⟩
      rw [Frag.find_of_matchHere _ _ _ hm]
      simp [List.find?, hnb, RefLine.text]
    · have hv : ¬ ∃ post, "refs/heads/".toList ++ l.name ++
          (if (rest.isEmpty && !nl) = true then [] else '\n' :: listing sep rest nl) =
            "refs/heads/".toList ++ b ++ post ∧ atEol post = true := by
        rintro ⟨post, e, hp⟩
        rw [List.append_assoc, List.append_assoc] at e
        have e2 := List.append_cancel_left e
        exact hnb (eol_unique b l.name post _ e2.symm hb
          (fun x hx => not_space_ne_newline x (hname x hx)) hp hT).symm
      rw [Frag.find_skip b l.hash _ sep
        (fun x hx => Frag.lowerAlnum_not_space x (lowerHex_lowerAlnum x (hhex x hx))) hsep hv]
      have hfind : (List.find? (fun l => decide (l.name = b)) (l :: rest)) =
          List.find? (fun l => decide (l.name = b)) rest := by
        simp [List.find?, hnb]
      rw [hfind]
      by_cases hc : (rest.isEmpty && !nl) = true
      · simp only [hc, if_true, List.append_nil]
        rw [Frag.find_no_space b _ (refsHeads_no_space l.name hname)]
        have hr : rest = [] := by
          simp only [Bool.and_eq_true, List.isEmpty_iff] at hc
          exact hc.1
        simp [hr]
      · simp only [hc, Bool.false_eq_true, if_false]
        rw [Frag.find_skip b _ _ '\n' (refsHeads_no_space l.name hname) (by decide)
          (listing_not_ref sep rest nl b hwf2)]
        exact ih hwf2

/-- On a branch name without metacharacters the library compiles the pattern
of the watcher to `hashPattern`. -/
theorem matchOf_goRegexp (other : RegexpPkg) (w : Watcher) (cmdOut : Str)
    (hb : ∀ c ∈ w.Branch, isMeta c = false) :
    w.matchOf (goRegexp other) cmdOut = (find [hashPattern w.Branch] cmdOut).getD [] ∧
    w.compileErr (goRegexp other) = none := by
  have hp := Frag.parse_hashPattern w.Branch hb
  unfold Watcher.matchOf Watcher.compileErr goRegexp GetCommitHash
  simp only [hp]
  exact ⟨rfl, trivial⟩

/-! ## Claims on extraction -/

/-- C1. For a listing made of lines `<40 lowercase hex digits><separator>refs/heads/<name>`
(separator a space for `LocalMasterHash`, a tab for `RemoteMasterHash`) and a
branch name made only of letters and digits that is the name of some line,
the extraction returns exactly the hash of the first line whose ref is
`refs/heads/<branch>`, with a nil error. -/
theorem extraction_returns_first_matching_hash (other : RegexpPkg) (w : Watcher)
    (ls : List RefLine) (nl : Bool) (l : RefLine)
    (hb : ∀ c ∈ w.Branch, c.isAlphanum = true)
    (hwf : ∀ l ∈ ls, l.wf)
    (hfirst : ls.find? (fun l => decide (l.name = w.Branch)) = some l) :
    w.LocalMasterHash (goRegexp other) (listing ' ' ls nl) = some (l.hash, none) ∧
    w.RemoteMasterHash (goRegexp other) (listing '\t' ls nl) = some (l.hash, none) := by
  have hmeta : ∀ c ∈ w.Branch, isMeta c = false := fun c hc => alnum_not_meta c (hb c hc)
  have hnl : ∀ c ∈ w.Branch, c ≠ '\n' := fun c hc => alnum_ne_newline c (hb c hc)
  have hmem : l ∈ ls := List.mem_of_find?_eq_some hfirst
  obtain ⟨hh, _⟩ := hwf l hmem
  obtain ⟨_, hhex⟩ := isHexHash_spec _ hh
  have hns : ∀ (c : Char), isSpace c = true → ∀ x ∈ l.hash, x ≠ c := by
    intro c hc x hx e
    have := Frag.lowerAlnum_not_space x (lowerHex_lowerAlnum x (hhex x hx))
    rw [e, hc] at this
    exact absurd this (by simp)
  constructor
  · obtain ⟨hm, he⟩ := matchOf_goRegexp other w (listing ' ' ls nl) hmeta
    rw [LocalMasterHash_eq, hm, he,
      Frag.find_listing w.Branch hnl ' ' (by decide) ls nl hwf, hfirst]
    simp only [Option.map_some', Option.getD_some, RefLine.text]
    rw [takeWhile_until_sep _ _ _ (hns ' ' (by decide))]
  · obtain ⟨hm, he⟩ := matchOf_goRegexp other w (listing '\t' ls nl) hmeta
    rw [RemoteMasterHash_eq, hm, he,
      Frag.find_listing w.Branch hnl '\t' (by decide) ls nl hwf, hfirst]
    simp only [Option.map_some', Option.getD_some, RefLine.text]
    rw [takeWhile_until_sep _ _ _ (hns '\t' (by decide))]

/-- The example listing, read for the branch `master` with either separator. -/
theorem extraction_returns_first_matching_hash_witness :
    (∀ c ∈ demoWatcher.Branch, c.isAlphanum = true) ∧
    (∀ l ∈ demoLines, l.wf) ∧
    (demoLines.find? (fun l => decide (l.name = demoWatcher.Branch)) =
      some ⟨"3f786850e387550fdab836ed7e6dc881de23001b".toList, "master".toList⟩) ∧
    (demoWatcher.LocalMasterHash (goRegexp noRegexp) (listing ' ' demoLines true)
      = some ("3f786850e387550fdab836ed7e6dc881de23001b".toList, none) ∧
    demoWatcher.RemoteMasterHash (goRegexp noRegexp) (listing '\t' demoLines true)
      = some ("3f786850e387550fdab836ed7e6dc881de23001b".toList, none)) :=
  ⟨by decide, by decide, by decide,
   extraction_returns_first_matching_hash noRegexp demoWatcher demoLines true
     ⟨"3f786850e387550fdab836ed7e6dc881de23001b".toList, "master".toList⟩
     (by decide) (by decide) (by decide)⟩

/-- The example listing is the text of the fixture. -/
theorem listing_demo :
    listing ' ' demoLines true =
      ("3f786850e387550fdab836ed7e6dc881de23001b refs/heads/master\n" ++
       "89e6c98d92887913cadf06b2adb97f26cde4849b refs/heads/dev\n").toList ∧
    listing ' ' demoLines false =
      ("3f786850e387550fdab836ed7e6dc881de23001b refs/heads/master\n" ++
       "89e6c98d92887913cadf06b2adb97f26cde4849b refs/heads/dev").toList := by
  decide

/-- The match of the watcher's pattern for a branch name without
metacharacters: nothing, or 40 characters of `[a-z0-9]`, one whitespace
character and the literal ref, ending at an end of line of the text. -/
theorem matchOf_shape (other : RegexpPkg) (w : Watcher) (cmdOut : Str)
    (hb : ∀ c ∈ w.Branch, isMeta c = false) :
    w.compileErr (goRegexp other) = none ∧
    (w.matchOf (goRegexp other) cmdOut = [] ∨
     ∃ pre h c post, cmdOut = pre ++ (h ++ c :: ("refs/heads/".toList ++ w.Branch)) ++ post ∧
       atEol post = true ∧ h.length = 40 ∧ (∀ x ∈ h, lowerAlnum.test x = true) ∧
       isSpace c = true ∧
       w.matchOf (goRegexp other) cmdOut = h ++ c :: ("refs/heads/".toList ++ w.Branch)) := by
  obtain ⟨hm, he⟩ := matchOf_goRegexp other w cmdOut hb
  refine ⟨he, ?_⟩
  rw [hm]
  cases hf : find [hashPattern w.Branch] cmdOut with
  | none => exact Or.inl rfl
  | some m =>
    right
    obtain ⟨pre, rest, e, hmatch⟩ := Frag.find_some _ _ _ hf
    rw [Frag.matchAlts_single] at hmatch
    obtain ⟨h, c, post, e2, hl, hall, hc, hp, rfl⟩ :=
      (Frag.matchHere_hashPattern w.Branch rest m).mp hmatch
    refine ⟨pre, h, c, post, ?_, hp, hl, hall, hc, rfl⟩
    rw [e, e2]
    simp

/-- C5, as the code has it.  For a branch name without regexp metacharacters,
each of the two hashes is either empty or begins with 40 characters of
`a-z`, `0-9` (not only `a-f`).  It is exactly these 40 characters when the
whitespace character matched after them is the one at which the function
splits (a space for `LocalMasterHash`, a tab for `RemoteMasterHash`);
otherwise it goes on with that whitespace character and the rest of the match,
`refs/heads/<branch>`, up to the first occurrence of the split character. -/
theorem hash_empty_or_40_alnum_then_separator (other : RegexpPkg) (w : Watcher) (cmdOut : Str)
    (hb : ∀ c ∈ w.Branch, isMeta c = false) :
    (w.LocalMasterHash (goRegexp other) cmdOut = some ([], none) ∧
      w.RemoteMasterHash (goRegexp other) cmdOut = some ([], none)) ∨
    ∃ h c, h.length = 40 ∧ (∀ x ∈ h, lowerAlnum.test x = true) ∧ isSpace c = true ∧
      w.matchOf (goRegexp other) cmdOut = h ++ c :: ("refs/heads/".toList ++ w.Branch) ∧
      (if c = ' ' then w.LocalMasterHash (goRegexp other) cmdOut = some (h, none)
       else w.LocalMasterHash (goRegexp other) cmdOut =
         some (h ++ c :: ("refs/heads/".toList ++ w.Branch).takeWhile (fun x => x != ' '),
           none)) ∧
      (if c = '\t' then w.RemoteMasterHash (goRegexp other) cmdOut = some (h, none)
       else w.RemoteMasterHash (goRegexp other) cmdOut =
         some (h ++ c :: ("refs/heads/".toList ++ w.Branch).takeWhile (fun x => x != '\t'),
           none)) := by
  obtain ⟨he, hm | ⟨pre, h, c, post, _, _, hl, hall, hc, hm⟩⟩ := matchOf_shape other w cmdOut hb
  · left
    rw [LocalMasterHash_eq, RemoteMasterHash_eq, hm, he]
    exact ⟨rfl, rfl⟩
  · right
    have hns : ∀ (d : Char), isSpace d = true → ∀ x ∈ h, x ≠ d := by
      intro d hd x hx e
      have := Frag.lowerAlnum_not_space x (hall x hx)
      rw [e, hd] at this
      exact absurd this (by simp)
    refine ⟨h, c, hl, hall, hc, hm, ?_, ?_⟩
    · rw [LocalMasterHash_eq, hm, he]
      by_cases hsp : c = ' '
      · subst hsp
        simp only [if_true]
        rw [takeWhile_until_sep _ _ _ (hns ' ' (by decide))]
      · simp only [hsp, if_false]
        rw [takeWhile_past _ _ _ _ (hns ' ' (by decide)) hsp]
    · rw [RemoteMasterHash_eq, hm, he]
      by_cases hsp : c = '\t'
      · subst hsp
        simp only [if_true]
        rw [takeWhile_until_sep _ _ _ (hns '\t' (by decide))]
      · simp only [hsp, if_false]
        rw [takeWhile_past _ _ _ _ (hns '\t' (by decide)) hsp]

/-- The shape of the two hashes on the example output of `git ls-remote`. -/
theorem hash_empty_or_40_alnum_then_separator_witness :
    (∀ c ∈ demoWatcher.Branch, isMeta c = false) ∧
    ((demoWatcher.LocalMasterHash (goRegexp noRegexp) demoLsRemote = some ([], none) ∧
      demoWatcher.RemoteMasterHash (goRegexp noRegexp) demoLsRemote = some ([], none)) ∨
    ∃ h c, h.length = 40 ∧ (∀ x ∈ h, lowerAlnum.test x = true) ∧ isSpace c = true ∧
      demoWatcher.matchOf (goRegexp noRegexp) demoLsRemote =
        h ++ c :: ("refs/heads/".toList ++ demoWatcher.Branch) ∧
      (if c = ' ' then demoWatcher.LocalMasterHash (goRegexp noRegexp) demoLsRemote = some (h, none)
       else demoWatcher.LocalMasterHash (goRegexp noRegexp) demoLsRemote =
         some (h ++ c :: ("refs/heads/".toList ++ demoWatcher.Branch).takeWhile
           (fun x => x != ' '), none)) ∧
      (if c = '\t' then
         demoWatcher.RemoteMasterHash (goRegexp noRegexp) demoLsRemote = some (h, none)
       else demoWatcher.RemoteMasterHash (goRegexp noRegexp) demoLsRemote =
         some (h ++ c :: ("refs/heads/".toList ++ demoWatcher.Branch).takeWhile
           (fun x => x != '\t'), none))) :=
  ⟨by decide,
   hash_empty_or_40_alnum_then_separator noRegexp demoWatcher demoLsRemote (by decide)⟩

/-- C5 fails as stated: on a line whose separator is a tab `LocalMasterHash`
returns the whole line of 58 characters; on a line that starts with 40
letters `z` it returns them, which are not hexadecimal digits; and for the
branch `master|dev`, whose bar is read as an alternation, it returns `dev`
from the line of the branch `dev`. -/
theorem hash_format_counterexample :
    (demoWatcher.LocalMasterHash (goRegexp noRegexp)
        "89e6c98d92887913cadf06b2adb97f26cde4849b\trefs/heads/master\n".toList
      = some ("89e6c98d92887913cadf06b2adb97f26cde4849b\trefs/heads/master".toList, none) ∧
     isHexHash "89e6c98d92887913cadf06b2adb97f26cde4849b\trefs/heads/master".toList = false) ∧
    (demoWatcher.LocalMasterHash (goRegexp noRegexp)
        "zzzzzzzzzzzzzzzzzzzzzzzzzzzzzzzzzzzzzzzz refs/heads/master\n".toList
      = some ("zzzzzzzzzzzzzzzzzzzzzzzzzzzzzzzzzzzzzzzz".toList, none) ∧
     isHexHash "zzzzzzzzzzzzzzzzzzzzzzzzzzzzzzzzzzzzzzzz".toList = false) ∧
    (barWatcher.LocalMasterHash (goRegexp noRegexp)
        "89e6c98d92887913cadf06b2adb97f26cde4849b refs/heads/dev\n".toList
      = some ("dev".toList, none) ∧
     isHexHash "dev".toList = false) := by
  decide

/-- C6, as the code has it.  For a branch name without regexp
metacharacters, a non-empty hash from `LocalMasterHash` comes from a place in
the raw output where 40 characters of `[a-z0-9]`, one whitespace character and
the literal text `refs/heads/<branch>` stand, ending at an end of line (the
end of the text, or a newline next); nothing is required of what stands
before the 40 characters.  The hash is that text up to its first space: the 40
characters when the whitespace character is a space. -/
theorem nonempty_hash_comes_from_line_end (other : RegexpPkg) (w : Watcher) (cmdOut hash : Str)
    (err : Option Error)
    (hb : ∀ c ∈ w.Branch, isMeta c = false)
    (hl : w.LocalMasterHash (goRegexp other) cmdOut = some (hash, err))
    (hne : hash ≠ []) :
    ∃ pre h c post, cmdOut = pre ++ (h ++ c :: ("refs/heads/".toList ++ w.Branch)) ++ post ∧
      atEol post = true ∧ h.length = 40 ∧ (∀ x ∈ h, lowerAlnum.test x = true) ∧
      isSpace c = true ∧
      hash = (h ++ c :: ("refs/heads/".toList ++ w.Branch)).takeWhile (fun x => x != ' ') ∧
      (c = ' ' → hash = h) := by
  rw [LocalMasterHash_eq] at hl
  simp only [Option.some.injEq, Prod.mk.injEq] at hl
  obtain ⟨hh, _⟩ := hl
  obtain ⟨_, hm | ⟨pre, h, c, post, e, hp, hlen, hall, hc, hm⟩⟩ := matchOf_shape other w cmdOut hb
  · rw [hm] at hh
    exact absurd hh.symm hne
  · refine ⟨pre, h, c, post, e, hp, hlen, hall, hc, by rw [← hh, hm], ?_⟩
    intro hsp
    subst hsp
    rw [← hh, hm]
    apply takeWhile_until_sep
    intro x hx e2
    have := Frag.lowerAlnum_not_space x (hall x hx)
    rw [e2] at this
    exact absurd this (by decide)

/-- The place of the match in the example output of `git show-ref`. -/
theorem nonempty_hash_comes_from_line_end_witness :
    (∀ c ∈ demoWatcher.Branch, isMeta c = false) ∧
    demoWatcher.LocalMasterHash (goRegexp noRegexp) demoShowRef
      = some ("3f786850e387550fdab836ed7e6dc881de23001b".toList, none) ∧
    "3f786850e387550fdab836ed7e6dc881de23001b".toList ≠ [] ∧
    ∃ pre h c post,
      demoShowRef = pre ++ (h ++ c :: ("refs/heads/".toList ++ demoWatcher.Branch)) ++ post ∧
      atEol post = true ∧ h.length = 40 ∧ (∀ x ∈ h, lowerAlnum.test x = true) ∧
      isSpace c = true ∧
      "3f786850e387550fdab836ed7e6dc881de23001b".toList =
        (h ++ c :: ("refs/heads/".toList ++ demoWatcher.Branch)).takeWhile (fun x => x != ' ') ∧
      (c = ' ' → "3f786850e387550fdab836ed7e6dc881de23001b".toList = h) :=
  ⟨by decide, by decide, by decide,
   nonempty_hash_comes_from_line_end noRegexp demoWatcher demoShowRef
     "3f786850e387550fdab836ed7e6dc881de23001b".toList none (by decide) (by decide) (by decide)⟩

/-- C6 fails as stated.  For the branch `v1.0` the dot of the name matches any
character: a hash is returned from the line of the branch `v1x0`, and no line
of the output is the hash, a whitespace character and a ref ending in
`refs/heads/v1.0`.  The match is not anchored at the start of a line: from
a line that begins `xx` the 40 characters after `xx` are returned, and no line
begins with them.  And from a line whose separator is a tab the whole line is
returned, which is not followed by a whitespace character and a ref. -/
theorem literal_line_match_counterexample :
    (dottedWatcher.LocalMasterHash (goRegexp noRegexp)
        "3f786850e387550fdab836ed7e6dc881de23001b refs/heads/v1x0\n".toList
      = some ("3f786850e387550fdab836ed7e6dc881de23001b".toList, none) ∧
     (linesOf "3f786850e387550fdab836ed7e6dc881de23001b refs/heads/v1x0\n".toList).any
        (isClaimedLine "3f786850e387550fdab836ed7e6dc881de23001b".toList "v1.0".toList)
      = false) ∧
    (demoWatcher.LocalMasterHash (goRegexp noRegexp)
        "xx3f786850e387550fdab836ed7e6dc881de23001b refs/heads/master\n".toList
      = some ("3f786850e387550fdab836ed7e6dc881de23001b".toList, none) ∧
     (linesOf "xx3f786850e387550fdab836ed7e6dc881de23001b refs/heads/master\n".toList).any
        (isClaimedLine "3f786850e387550fdab836ed7e6dc881de23001b".toList "master".toList)
      = false) ∧
    (demoWatcher.LocalMasterHash (goRegexp noRegexp)
        "3f786850e387550fdab836ed7e6dc881de23001b\trefs/heads/master\n".toList
      = some ("3f786850e387550fdab836ed7e6dc881de23001b\trefs/heads/master".toList, none) ∧
     (linesOf "3f786850e387550fdab836ed7e6dc881de23001b\trefs/heads/master\n".toList).any
        (isClaimedLine "3f786850e387550fdab836ed7e6dc881de23001b\trefs/heads/master".toList
          "master".toList)
      = false) := by
  decide

/-- The shape of C6 does hold on the example listing, for the hash that is
extracted from it. -/
theorem isClaimedLine_demo :
    (linesOf demoShowRef).any
      (isClaimedLine "3f786850e387550fdab836ed7e6dc881de23001b".toList "master".toList) = true := by
  decide

/-! ## Claims on change detection -/

/-- C2. `HasChanged` returns true exactly when the hash from
`RemoteMasterHash` differs from the hash from `LocalMasterHash` (so it returns
false when they are equal, both empty included), and one turn of the loop of
`Start` runs `job` exactly in that case: the turn pulls the repository and
attempts the commands when the hashes differ, and does neither when they are
equal. -/
theorem hasChanged_iff_hashes_differ (re : RegexpPkg) (env : Env) (w : Watcher)
    (tr : List Event) (lh rh : Str) (e1 e2 : Option Error)
    (hl : w.LocalMasterHash re (env.showRef tr w.ServicePath) = some (lh, e1))
    (hr : w.RemoteMasterHash re
      (env.lsRemote (handleIfErr "Error getting local hash".toList e1 tr) w.ServicePath)
        = some (rh, e2)) :
    ∃ logs, w.HasChanged re env tr = some (decide (rh ≠ lh), tr ++ logs) ∧
      w.StartIter re env tr =
        some ((if rh ≠ lh then (w.job env (tr ++ logs)).2 else tr ++ logs) ++ [.sleep 5]) ∧
      ∃ new, w.StartIter re env tr = some (tr ++ new) ∧
        pulled new = (if rh ≠ lh then [w] else []) ∧
        attempted new = (if rh ≠ lh then w.ServiceCommands else []) :=
  startIter_spec re env w tr lh rh e1 e2 hl hr

/-- The example in which the remote is ahead: the turn runs the job. -/
theorem hasChanged_iff_hashes_differ_witness :
    (demoWatcher.LocalMasterHash (goRegexp noRegexp) (demoEnv.showRef [] demoWatcher.ServicePath)
        = some ("3f786850e387550fdab836ed7e6dc881de23001b".toList, none)) ∧
    (demoWatcher.RemoteMasterHash (goRegexp noRegexp)
        (demoEnv.lsRemote (handleIfErr "Error getting local hash".toList none [])
          demoWatcher.ServicePath)
        = some ("89e6c98d92887913cadf06b2adb97f26cde4849b".toList, none)) ∧
    ∃ logs, demoWatcher.HasChanged (goRegexp noRegexp) demoEnv [] =
        some (decide ("89e6c98d92887913cadf06b2adb97f26cde4849b".toList ≠
          "3f786850e387550fdab836ed7e6dc881de23001b".toList), [] ++ logs) ∧
      demoWatcher.StartIter (goRegexp noRegexp) demoEnv [] =
        some ((if "89e6c98d92887913cadf06b2adb97f26cde4849b".toList ≠
            "3f786850e387550fdab836ed7e6dc881de23001b".toList
          then (demoWatcher.job demoEnv ([] ++ logs)).2 else [] ++ logs) ++ [.sleep 5]) ∧
      ∃ new, demoWatcher.StartIter (goRegexp noRegexp) demoEnv [] = some ([] ++ new) ∧
        pulled new = (if "89e6c98d92887913cadf06b2adb97f26cde4849b".toList ≠
            "3f786850e387550fdab836ed7e6dc881de23001b".toList then [demoWatcher] else []) ∧
        attempted new = (if "89e6c98d92887913cadf06b2adb97f26cde4849b".toList ≠
            "3f786850e387550fdab836ed7e6dc881de23001b".toList
          then demoWatcher.ServiceCommands else []) :=
  ⟨by decide, by decide,
   hasChanged_iff_hashes_differ (goRegexp noRegexp) demoEnv demoWatcher [] _ _ none none
     (by decide) (by decide)⟩

/-- C3, as the code has it.  When no branch ref matches in the local output
nor in the remote output, both extracted hashes are the empty string and
`HasChanged` returns false: two empty hashes are equal, the repository counts
as unchanged, and the turn of the loop neither pulls nor runs a command. -/
theorem hasChanged_false_on_two_empty_hashes (re : RegexpPkg) (env : Env) (w : Watcher)
    (tr : List Event)
    (hl : w.matchOf re (env.showRef tr w.ServicePath) = [])
    (hr : w.matchOf re (env.lsRemote
      (handleIfErr "Error getting local hash".toList (w.compileErr re) tr) w.ServicePath) = []) :
    w.LocalMasterHash re (env.showRef tr w.ServicePath) = some ([], w.compileErr re) ∧
    w.RemoteMasterHash re (env.lsRemote
      (handleIfErr "Error getting local hash".toList (w.compileErr re) tr) w.ServicePath)
        = some ([], w.compileErr re) ∧
    ∃ logs, w.HasChanged re env tr = some (false, tr ++ logs) ∧
      ∃ new, w.StartIter re env tr = some (tr ++ new) ∧ pulled new = [] ∧ attempted new = [] := by
  have h1 := LocalMasterHash_eq re w (env.showRef tr w.ServicePath)
  have h2 := RemoteMasterHash_eq re w (env.lsRemote
      (handleIfErr "Error getting local hash".toList (w.compileErr re) tr) w.ServicePath)
  rw [hl] at h1
  rw [hr] at h2
  simp only [List.takeWhile_nil] at h1 h2
  obtain ⟨logs, e, _, new, en, p, a⟩ := startIter_spec re env w tr [] [] _ _ h1 h2
  refine ⟨h1, h2, logs, by simpa using e, new, en, by simpa using p, by simpa using a⟩

/-- Two empty outputs: the turn of the loop does nothing but sleep. -/
theorem hasChanged_false_on_two_empty_hashes_witness :
    demoWatcher.matchOf (goRegexp noRegexp) (silentEnv.showRef [] demoWatcher.ServicePath) = [] ∧
    demoWatcher.matchOf (goRegexp noRegexp) (silentEnv.lsRemote
      (handleIfErr "Error getting local hash".toList
        (demoWatcher.compileErr (goRegexp noRegexp)) []) demoWatcher.ServicePath) = [] ∧
    (demoWatcher.LocalMasterHash (goRegexp noRegexp)
        (silentEnv.showRef [] demoWatcher.ServicePath)
      = some ([], demoWatcher.compileErr (goRegexp noRegexp)) ∧
    demoWatcher.RemoteMasterHash (goRegexp noRegexp) (silentEnv.lsRemote
      (handleIfErr "Error getting local hash".toList
        (demoWatcher.compileErr (goRegexp noRegexp)) []) demoWatcher.ServicePath)
        = some ([], demoWatcher.compileErr (goRegexp noRegexp)) ∧
    ∃ logs, demoWatcher.HasChanged (goRegexp noRegexp) silentEnv [] = some (false, [] ++ logs) ∧
      ∃ new, demoWatcher.StartIter (goRegexp noRegexp) silentEnv [] = some ([] ++ new) ∧
        pulled new = [] ∧ attempted new = []) :=
  ⟨by decide, by decide,
   hasChanged_false_on_two_empty_hashes (goRegexp noRegexp) silentEnv demoWatcher []
     (by decide) (by decide)⟩

/-- C3 fails as stated: with two outputs in which nothing matches, both
hashes are empty and `HasChanged` returns false, not true. -/
theorem hasChanged_two_empty_hashes_counterexample :
    demoWatcher.LocalMasterHash (goRegexp noRegexp) [] = some ([], none) ∧
    demoWatcher.RemoteMasterHash (goRegexp noRegexp) [] = some ([], none) ∧
    demoWatcher.HasChanged (goRegexp noRegexp) silentEnv [] = some (false, []) := by
  decide

/-- C4. When the pattern of the branch has no match in the raw output (the
empty output and arbitrary text included), `LocalMasterHash` and
`RemoteMasterHash` both return the empty string as the hash, without a panic;
element `[0]` of the split is defined for the empty match and for every other
text. -/
theorem extraction_empty_when_no_match (re : RegexpPkg) (w : Watcher) (cmdOut : Str)
    (hno : ∀ checker, re.Compile w.GetCommitHash = .ok checker →
      re.FindString checker cmdOut = []) :
    w.LocalMasterHash re cmdOut = some ([], w.compileErr re) ∧
    w.RemoteMasterHash re cmdOut = some ([], w.compileErr re) ∧
    (strings.Split [] " ".toList)[0]? = some [] ∧
    (strings.Split [] "\t".toList)[0]? = some [] ∧
    ∀ m : Str, (strings.Split m " ".toList)[0]? ≠ none ∧ (strings.Split m "\t".toList)[0]? ≠ none := by
  have hm : w.matchOf re cmdOut = [] := by
    unfold Watcher.matchOf
    cases h : re.Compile w.GetCommitHash with
    | error e => rfl
    | ok checker => exact hno checker h
  have h1 := LocalMasterHash_eq re w cmdOut
  have h2 := RemoteMasterHash_eq re w cmdOut
  rw [hm] at h1 h2
  refine ⟨h1, h2, by decide, by decide, fun m => ⟨?_, ?_⟩⟩
  · have := strings.Split_head_single ' ' m
    have e : " ".toList = [' '] := rfl
    rw [e, this]; simp
  · have := strings.Split_head_single '\t' m
    have e : "\t".toList = ['\t'] := rfl
    rw [e, this]; simp

/-- An output that is an error message of git: nothing matches. -/
theorem extraction_empty_when_no_match_witness :
    (∀ checker, (goRegexp noRegexp).Compile demoWatcher.GetCommitHash = .ok checker →
      (goRegexp noRegexp).FindString checker "fatal: not a git repository\n".toList = []) ∧
    (demoWatcher.LocalMasterHash (goRegexp noRegexp) "fatal: not a git repository\n".toList
        = some ([], demoWatcher.compileErr (goRegexp noRegexp)) ∧
    demoWatcher.RemoteMasterHash (goRegexp noRegexp) "fatal: not a git repository\n".toList
        = some ([], demoWatcher.compileErr (goRegexp noRegexp)) ∧
    (strings.Split [] " ".toList)[0]? = some [] ∧
    (strings.Split [] "\t".toList)[0]? = some [] ∧
    ∀ m : Str, (strings.Split m " ".toList)[0]? ≠ none ∧
      (strings.Split m "\t".toList)[0]? ≠ none) :=
  have hno : ∀ checker, (goRegexp noRegexp).Compile demoWatcher.GetCommitHash = .ok checker →
      (goRegexp noRegexp).FindString checker "fatal: not a git repository\n".toList = [] := by
    intro checker h
    have hc : demoWatcher.matchOf (goRegexp noRegexp) "fatal: not a git repository\n".toList = [] := by
      decide
    unfold Watcher.matchOf at hc
    rw [h] at hc
    exact hc
  ⟨hno, extraction_empty_when_no_match (goRegexp noRegexp) demoWatcher _ hno⟩

/-- C10, as the code has it.  From the same text and branch the two functions
compile the same pattern and take the same match `m` (and report the same
compile error); `LocalMasterHash` returns `m` up to its first space and
`RemoteMasterHash` returns `m` up to its first tab.  So the two hashes are
equal exactly when `m` holds neither a space nor a tab, as when nothing
matches. -/
theorem local_remote_same_match_cut_differently (re : RegexpPkg) (w : Watcher) (cmdOut : Str) :
    w.LocalMasterHash re cmdOut =
      some ((w.matchOf re cmdOut).takeWhile (fun x => x != ' '), w.compileErr re) ∧
    w.RemoteMasterHash re cmdOut =
      some ((w.matchOf re cmdOut).takeWhile (fun x => x != '\t'), w.compileErr re) ∧
    (w.LocalMasterHash re cmdOut = w.RemoteMasterHash re cmdOut ↔
      ' ' ∉ w.matchOf re cmdOut ∧ '\t' ∉ w.matchOf re cmdOut) := by
  refine ⟨LocalMasterHash_eq re w cmdOut, RemoteMasterHash_eq re w cmdOut, ?_⟩
  rw [LocalMasterHash_eq, RemoteMasterHash_eq, ← takeWhile_ne_eq_iff]
  simp

/-- C10 fails as stated: from one line of `git show-ref` the local function
returns the 40-character hash and the remote function returns the whole
line. -/
theorem local_remote_differ_counterexample :
    demoWatcher.LocalMasterHash (goRegexp noRegexp)
        "3f786850e387550fdab836ed7e6dc881de23001b refs/heads/master\n".toList
      = some ("3f786850e387550fdab836ed7e6dc881de23001b".toList, none) ∧
    demoWatcher.RemoteMasterHash (goRegexp noRegexp)
        "3f786850e387550fdab836ed7e6dc881de23001b refs/heads/master\n".toList
      = some ("3f786850e387550fdab836ed7e6dc881de23001b refs/heads/master".toList, none) := by
  decide

/-! ## Claims on the job cycle, notifications and start-up -/

/-- C7. For every command list, every outcome of the pull and every result of
each command, one job cycle attempts exactly the configured commands, each
once and in declared order, after the pull; a failed pull or a failing command
stops nothing, and `job` returns nil. -/
theorem job_attempts_commands_in_order (env : Env) (w : Watcher) (tr : List Event) :
    (w.job env tr).1 = none ∧
    ∃ n1 n2 n3, (w.job env tr).2 = tr ++ (n1 ++ (n2 ++ n3)) ∧
      (attempted n1 = [] ∧ pulled n1 = []) ∧
      (attempted n2 = [] ∧ pulled n2 = [w]) ∧
      (attempted n3 = w.ServiceCommands ∧ pulled n3 = []) ∧
      attempted (n1 ++ (n2 ++ n3)) = w.ServiceCommands := by
  obtain ⟨r, n1, n2, n3, e, ⟨_, a1, p1⟩, ⟨_, a2, p2⟩, ⟨_, a3, p3⟩⟩ := job_trace env w tr
  refine ⟨r, n1, n2, n3, e, ⟨a1, p1⟩, ⟨a2, p2⟩, ⟨a3, p3⟩, ?_⟩
  rw [attempted_append, attempted_append, a1, a2, a3]; rfl

/-- The example of C7: the pull fails and the second of the three commands
fails, and all three commands are attempted, in order. -/
theorem job_demo_trace :
    (demoWatcher.job demoEnv []).1 = none ∧
    attempted (demoWatcher.job demoEnv []).2 =
      ["cmd-ok".toList, "cmd-fail".toList, "cmd-ok2".toList] ∧
    (demoWatcher.job demoEnv []).2 =
      [ .send ⟨"http://hooks.example/ci".toList, "Started job for service api".toList,
          "info".toList, []⟩,
        .pull demoWatcher,
        .log "Error pulling repository: exit status 1".toList,
        .log "-> 'cmd-ok'\n".toList,
        .exec demoWatcher "cmd-ok".toList,
        .log "-> 'cmd-fail'\n".toList,
        .exec demoWatcher "cmd-fail".toList,
        .log "Error running command: exit status 1".toList,
        .log "-> 'cmd-ok2'\n".toList,
        .exec demoWatcher "cmd-ok2".toList ] := by
  decide

/-- C8. With an empty endpoint `composeNotification` makes no delivery
attempt, and so neither does a job cycle nor the start-up in `WatchCommits`.
With a non-empty endpoint each event makes exactly one attempt: one per
watcher at start-up, of type "success", and one per job cycle, of type "info",
which is the first effect of the cycle and so precedes the pull; the cycle
makes no other delivery, whatever the pull and the commands do. -/
theorem notifications_gated_one_per_event (env : Env) (w : Watcher) (text ty lg : Str)
    (tr : List Event) (c : ServerConfig) (ws : List Watcher) (tr1 : List Event) :
    (∃ new, w.composeNotification env text ty lg tr = tr ++ new ∧
      deliveries new =
        (if w.Notifications = [] then []
         else [⟨w.Notifications, text ++ w.ServiceName, ty, lg⟩])) ∧
    (∃ new, (w.job env tr).2 = tr ++ new ∧
      deliveries new =
        (if w.Notifications = [] then []
         else [⟨w.Notifications, "Started job for service ".toList ++ w.ServiceName,
                "info".toList, []⟩])) ∧
    (w.Notifications ≠ [] →
      ∃ rest, (w.job env tr).2 =
          tr ++ Event.send ⟨w.Notifications, "Started job for service ".toList ++ w.ServiceName,
            "info".toList, []⟩ :: rest ∧
        deliveries rest = [] ∧ pulled rest = [w] ∧ attempted rest = w.ServiceCommands) ∧
    (WatchCommits env c tr = some (ws, tr1) →
      ws.length = c.Services.length ∧
      ∃ new, tr1 = tr ++ new ∧
        deliveries new =
          (if c.NotificationURL = [] then []
           else ws.map fun w =>
             ⟨c.NotificationURL, "Started CI for ".toList ++ w.ServiceName,
               "success".toList, []⟩)) := by
  refine ⟨?_, ?_, job_trace_head env w tr, ?_⟩
  · obtain ⟨new, e, d, _⟩ := composeNotification_spec env w text ty lg tr
    exact ⟨new, e, d⟩
  · obtain ⟨_, n1, n2, n3, e, ⟨d1, _, _⟩, ⟨d2, _, _⟩, ⟨d3, _, _⟩⟩ := job_trace env w tr
    refine ⟨n1 ++ (n2 ++ n3), e, ?_⟩
    rw [deliveries_append, deliveries_append, d1, d2, d3]; simp
  · intro h
    obtain ⟨hall, new, e, d⟩ := watchAll_inv env c c.Services tr ws tr1 h
    exact ⟨hall.length_eq.symm, new, e, d⟩

/-- The start-up of the example configuration, and the first event of a job. -/
theorem notifications_gated_one_per_event_witness :
    WatchCommits demoEnv demoConfig [] =
      some ([ { ServiceName := "api".toList, ServicePath := "/srv/api".toList,
                ServiceCommands := [], Notifications := "http://hooks.example/ci".toList,
                Branch := "master".toList },
              { ServiceName := "web".toList, ServicePath := "/srv/web".toList,
                ServiceCommands := ["make".toList],
                Notifications := "http://hooks.example/ci".toList, Branch := "dev".toList } ],
            [ .send ⟨"http://hooks.example/ci".toList, "Started CI for api".toList,
                "success".toList, []⟩,
              .send ⟨"http://hooks.example/ci".toList, "Started CI for web".toList,
                "success".toList, []⟩ ]) ∧
    (demoWatcher.Notifications ≠ [] →
      ∃ rest, (demoWatcher.job demoEnv []).2 =
          [] ++ Event.send ⟨demoWatcher.Notifications,
            "Started job for service ".toList ++ demoWatcher.ServiceName,
            "info".toList, []⟩ :: rest ∧
        deliveries rest = [] ∧ pulled rest = [demoWatcher] ∧
        attempted rest = demoWatcher.ServiceCommands) :=
  ⟨by decide,
   (notifications_gated_one_per_event demoEnv demoWatcher [] [] [] [] demoConfig [] []).2.2.1⟩

/-- C9. The watcher that `WatchCommits` builds for a service has branch
"master" when the options of the service carry no `branch` entry, and the
configured string when they carry one; for a service without the entry the
pattern of `GetCommitHash` ends in `refs/heads/master$`. -/
theorem branch_defaults_to_master (env : Env) (c : ServerConfig) (service : Str)
    (options : List (Str × Value)) (tr : List Event) (path : Str)
    (hp : options.lookup "path".toList = some (.str path)) :
    (options.lookup "branch".toList = none →
      ∃ w tr1, newWatcher env c service options tr = some (w, tr1) ∧
        w.Branch = "master".toList ∧
        w.GetCommitHash = "(?m)[a-z0-9]{40}\\srefs/heads/master$".toList) ∧
    (∀ b, options.lookup "branch".toList = some (.str b) →
      ∃ w tr1, newWatcher env c service options tr = some (w, tr1) ∧ w.Branch = b ∧
        w.GetCommitHash = "(?m)[a-z0-9]{40}\\srefs/heads/".toList ++ b ++ "$".toList) ∧
    (∀ ws tr1, WatchCommits env c tr = some (ws, tr1) →
      List.Forall₂ (fun so w => w.ServiceName = so.1 ∧
        (so.2.lookup "branch".toList = none → w.Branch = "master".toList) ∧
        (∀ b, so.2.lookup "branch".toList = some (.str b) → w.Branch = b)) c.Services ws) := by
  refine ⟨fun hb => ?_, fun b hb => ?_, fun ws tr1 h => (watchAll_inv env c c.Services tr ws tr1 h).1⟩
  · obtain ⟨w, tr1, e⟩ := newWatcher_returns env c service options tr path hp (Or.inl hb)
    obtain ⟨_, _, b1, _, _⟩ := newWatcher_inv env c service options tr w tr1 e
    refine ⟨w, tr1, e, b1 hb, ?_⟩
    rw [GetCommitHash, b1 hb]; rfl
  · obtain ⟨w, tr1, e⟩ := newWatcher_returns env c service options tr path hp (Or.inr ⟨b, hb⟩)
    obtain ⟨_, _, _, b2, _⟩ := newWatcher_inv env c service options tr w tr1 e
    refine ⟨w, tr1, e, b2 b hb, ?_⟩
    rw [GetCommitHash, b2 b hb]

/-- The service `api` of the example, which names no branch. -/
theorem branch_defaults_to_master_witness :
    ([("path".toList, Value.str "api".toList)] : List (Str × Value)).lookup "path".toList
      = some (.str "api".toList) ∧
    (([("path".toList, Value.str "api".toList)] : List (Str × Value)).lookup "branch".toList
        = none →
      ∃ w tr1, newWatcher demoEnv demoConfig "api".toList
          [("path".toList, Value.str "api".toList)] [] = some (w, tr1) ∧
        w.Branch = "master".toList ∧
        w.GetCommitHash = "(?m)[a-z0-9]{40}\\srefs/heads/master$".toList) :=
  ⟨by decide,
   (branch_defaults_to_master demoEnv demoConfig "api".toList
     [("path".toList, Value.str "api".toList)] [] "api".toList (by decide)).1⟩

end FlakaCI
